import Mathlib

/-!
Verification of the World-Anvil-MCP core subsystem: the in-memory response
cache (TTL expiration, LRU eviction, regex pattern invalidation) from
`cache.py`, and the request pipeline (cache consultation, retry with
exponential backoff, error classification, write invalidation) from
`client.py`.

The embedding is shallow: Python's `OrderedDict` becomes an ordered
association list (head = least recently used), wall-clock time is an
explicit `Int` parameter, `random.random()` becomes an explicit jitter
stream, and the network becomes a script mapping attempt indices to
outcomes.  Python's `re` module is modelled by a derivative-based regex
engine over the regular fragment of its pattern syntax: literals,
escapes, `.`, character classes, groups, alternation, anchors and the
greedy/lazy/bounded quantifiers; compilation mirrors `re.error`
(nothing-to-repeat, multiple-repeat, unterminated constructs).
Word boundaries, lookaround, inline flags and backreferences are outside
the fragment and map to a compile error.
-/

deriving instance DecidableEq for Except

namespace WAMCP

/-- Does a character belong to a (possibly negated) set of ranges?  This
is the membership test of a Python character class. -/
def clsMatch (neg : Bool) (ranges : List (Char × Char)) (c : Char) : Bool :=
  if neg then !(ranges.any fun p => decide (p.1 ≤ c) && decide (c ≤ p.2))
  else ranges.any fun p => decide (p.1 ≤ c) && decide (c ≤ p.2)

/-- Regular expressions: the regular fragment of Python `re` patterns.
`cls` is a character class, `bol` is `^`/`\A` (start of subject), `eol`
is `$` (end of subject or just before a trailing newline), `eos` is `\Z`
(end of subject only). -/
inductive Regex where
  | fail : Regex
  | eps : Regex
  | chr : Char → Regex
  | any : Regex
  | cls : Bool → List (Char × Char) → Regex
  | bol : Regex
  | eol : Regex
  | eos : Regex
  | alt : Regex → Regex → Regex
  | cat : Regex → Regex → Regex
  | star : Regex → Regex
deriving DecidableEq, Repr

/-- Positional matching semantics, mirroring `re.match` placement:
`PM a r s t` holds when `r` matches exactly `s`, where `a` records
whether `s` begins at the very start of the subject and `t` is the part
of the subject that follows `s`.  The anchors consult `a` and `t`; every
other construct ignores them. -/
inductive PM : Bool → Regex → List Char → List Char → Prop where
  | eps {a : Bool} {t : List Char} : PM a .eps [] t
  | chr {a : Bool} {t : List Char} (c : Char) : PM a (.chr c) [c] t
  | any {a : Bool} {t : List Char} (c : Char) : PM a .any [c] t
  | cls {a : Bool} {t : List Char} {neg : Bool} {rs : List (Char × Char)} {c : Char} :
      clsMatch neg rs c = true → PM a (.cls neg rs) [c] t
  | bol {t : List Char} : PM true .bol [] t
  | eolNil {a : Bool} : PM a .eol [] []
  | eolNl {a : Bool} : PM a .eol [] ['\n']
  | eos {a : Bool} : PM a .eos [] []
  | altL {a : Bool} {r₁ r₂ : Regex} {s t : List Char} :
      PM a r₁ s t → PM a (.alt r₁ r₂) s t
  | altR {a : Bool} {r₁ r₂ : Regex} {s t : List Char} :
      PM a r₂ s t → PM a (.alt r₁ r₂) s t
  | cat {a : Bool} {r₁ r₂ : Regex} {s₁ s₂ t : List Char} :
      PM a r₁ s₁ (s₂ ++ t) → PM (a && s₁.isEmpty) r₂ s₂ t →
      PM a (.cat r₁ r₂) (s₁ ++ s₂) t
  | starNil {a : Bool} {r : Regex} {t : List Char} : PM a (.star r) [] t
  | starCons {a : Bool} {r : Regex} {s₁ s₂ t : List Char} :
      PM a r s₁ (s₂ ++ t) → PM (a && s₁.isEmpty) (.star r) s₂ t →
      PM a (.star r) (s₁ ++ s₂) t

/-- Does the regex match the empty string at this position?  `a` is
"at subject start", `t` the remaining subject. -/
def Regex.nullableAt (a : Bool) (t : List Char) : Regex → Bool
  | .fail => false
  | .eps => true
  | .chr _ => false
  | .any => false
  | .cls _ _ => false
  | .bol => a
  | .eol => decide (t = []) || decide (t = ['\n'])
  | .eos => decide (t = [])
  | .alt r₁ r₂ => r₁.nullableAt a t || r₂.nullableAt a t
  | .cat r₁ r₂ => r₁.nullableAt a t && r₂.nullableAt a t
  | .star _ => true

/-- Brzozowski derivative at a position: consume `c` when the remaining
subject was `c :: t` and the position flags were `a`. -/
def Regex.derivAt (a : Bool) (t : List Char) (c : Char) : Regex → Regex
  | .fail => .fail
  | .eps => .fail
  | .chr c' => if c = c' then .eps else .fail
  | .any => .eps
  | .cls neg rs => if clsMatch neg rs c then .eps else .fail
  | .bol => .fail
  | .eol => .fail
  | .eos => .fail
  | .alt r₁ r₂ => .alt (r₁.derivAt a t c) (r₂.derivAt a t c)
  | .cat r₁ r₂ =>
      if r₁.nullableAt a (c :: t) then
        .alt (.cat (r₁.derivAt a t c) r₂) (r₂.derivAt a t c)
      else .cat (r₁.derivAt a t c) r₂
  | .star r => .cat (r.derivAt a t c) (.star r)

/-- Does the regex match some prefix of `s`, with `a` recording whether
`s` starts at the subject start? -/
def Regex.matchAt (a : Bool) (r : Regex) : List Char → Bool
  | [] => r.nullableAt a []
  | c :: t => r.nullableAt a (c :: t) || (r.derivAt a t c).matchAt false t

/-- Python's `re.match` semantics: does the regex match some prefix of
the subject (anchored at the start, not a substring search)? -/
def Regex.matchStart (r : Regex) (s : List Char) : Bool := r.matchAt true s

/-- A token character compiles to itself: ordinary characters become
literals, `.` becomes the wildcard. -/
def selfAtom (c : Char) : Regex := if c = '.' then .any else .chr c

/-- Concatenation of self-matching atoms in front of a continuation. -/
def atomCat : List Char → Regex → Regex
  | [], k => k
  | c :: cs, k => .cat (selfAtom c) (atomCat cs k)

/-- The compiled form of `.*token.*` for a token of self-matching
characters. -/
def containsRe (tok : List Char) : Regex :=
  .cat (.star .any) (atomCat tok (.cat (.star .any) .eps))

/-- ASCII ranges for the `\d`, `\w`, `\s` class escapes and their
complements (ASCII model of Python's default Unicode classes). -/
def digitRanges : List (Char × Char) := [('0', '9')]

def wordRanges : List (Char × Char) := [('0', '9'), ('A', 'Z'), ('_', '_'), ('a', 'z')]

def spaceRanges : List (Char × Char) := [('\t', '\r'), (' ', ' ')]

def notDigitRanges : List (Char × Char) :=
  [(Char.ofNat 0, '/'), (':', Char.ofNat 0x10FFFF)]

def notWordRanges : List (Char × Char) :=
  [(Char.ofNat 0, '/'), (':', '@'), ('[', '^'), ('`', '`'),
   (Char.ofNat 0x7B, Char.ofNat 0x10FFFF)]

def notSpaceRanges : List (Char × Char) :=
  [(Char.ofNat 0, Char.ofNat 8), (Char.ofNat 14, Char.ofNat 0x1F),
   ('!', Char.ofNat 0x10FFFF)]

/-- Pattern tokens. -/
inductive Tok where
  | lit : Char → Tok
  | dot : Tok
  | anchor : Regex → Tok
  | cls : Regex → Tok
  | star : Tok
  | plus : Tok
  | quest : Tok
  | rep : Nat → Option Nat → Tok
  | lpar : Tok
  | rpar : Tok
  | bar : Tok
deriving DecidableEq, Repr

/-- Resolve an escape outside a character class.  Unknown alphanumeric
escapes are `re.error` (`\q`); backreferences, octal/hex escapes and the
word-boundary assertions `\b`/`\B` are outside the modelled fragment and
also map to a compile failure. -/
def escTok (c : Char) : Option Tok :=
  if c = 'd' then some (.cls (.cls false digitRanges))
  else if c = 'D' then some (.cls (.cls true digitRanges))
  else if c = 'w' then some (.cls (.cls false wordRanges))
  else if c = 'W' then some (.cls (.cls true wordRanges))
  else if c = 's' then some (.cls (.cls false spaceRanges))
  else if c = 'S' then some (.cls (.cls true spaceRanges))
  else if c = 'A' then some (.anchor .bol)
  else if c = 'Z' then some (.anchor .eos)
  else if c = 'n' then some (.lit '\n')
  else if c = 't' then some (.lit '\t')
  else if c = 'r' then some (.lit '\r')
  else if c = 'f' then some (.lit (Char.ofNat 12))
  else if c = 'v' then some (.lit (Char.ofNat 11))
  else if c = 'a' then some (.lit (Char.ofNat 7))
  else if c.isAlpha || c.isDigit then none
  else some (.lit c)

/-- An element produced by an escape inside a character class. -/
inductive ClsElem where
  | lit : Char → ClsElem
  | ranges : List (Char × Char) → ClsElem

/-- Resolve an escape inside a character class (`[\b]` is the backspace
character, a Python quirk). -/
def classEsc (c : Char) : Option ClsElem :=
  if c = 'd' then some (.ranges digitRanges)
  else if c = 'D' then some (.ranges notDigitRanges)
  else if c = 'w' then some (.ranges wordRanges)
  else if c = 'W' then some (.ranges notWordRanges)
  else if c = 's' then some (.ranges spaceRanges)
  else if c = 'S' then some (.ranges notSpaceRanges)
  else if c = 'n' then some (.lit '\n')
  else if c = 't' then some (.lit '\t')
  else if c = 'r' then some (.lit '\r')
  else if c = 'f' then some (.lit (Char.ofNat 12))
  else if c = 'v' then some (.lit (Char.ofNat 11))
  else if c = 'a' then some (.lit (Char.ofNat 7))
  else if c = 'b' then some (.lit (Char.ofNat 8))
  else if c.isAlpha || c.isDigit then none
  else some (.lit c)

/-- Classify one top-level pattern character: either a complete token or
the tokenizer mode it opens. -/
inductive TkMode where
  | top : TkMode
  | esc : TkMode
  | grp : TkMode
  | grpQ : TkMode
  | grpP : TkMode
  | grpName : Bool → TkMode
  | clsCaret : TkMode
  | clsFirst : Bool → TkMode
  | clsNone : Bool → List (Char × Char) → TkMode
  | clsHave : Bool → List (Char × Char) → Char → TkMode
  | clsDash : Bool → List (Char × Char) → Char → TkMode
  | clsRanges : Bool → List (Char × Char) → TkMode
  | clsRangesDash : Bool → List (Char × Char) → TkMode
  | clsEsc : Bool → List (Char × Char) → Option Char → TkMode
  | rep0 : List Char → TkMode
  | rep1 : List Char → List Char → TkMode

def topTok (c : Char) : Sum Tok TkMode :=
  if c = '\\' then .inr .esc
  else if c = '(' then .inr .grp
  else if c = ')' then .inl .rpar
  else if c = '[' then .inr .clsCaret
  else if c = '|' then .inl .bar
  else if c = '*' then .inl .star
  else if c = '+' then .inl .plus
  else if c = '?' then .inl .quest
  else if c = Char.ofNat 0x7B then .inr (.rep0 [])
  else if c = '.' then .inl .dot
  else if c = '^' then .inl (.anchor .bol)
  else if c = '$' then .inl (.anchor .eol)
  else .inl (.lit c)

/-- Numeric value of a digit string. -/
def digitsVal (ds : List Char) : Nat :=
  ds.foldl (fun acc d => acc * 10 + (d.toNat - 48)) 0

/-- The literal tokens a malformed `{...}` quantifier falls back to
(Python treats a brace with no valid repeat spec as a literal). -/
def repFallback (rawm rawn : List Char) (comma : Bool) : List Tok :=
  (Tok.lit (Char.ofNat 0x7B) :: rawm.map Tok.lit) ++
    (if comma then [Tok.lit ','] else []) ++ rawn.map Tok.lit

/-- One-pass tokenizer for the modelled fragment of Python pattern
syntax.  `acc` collects tokens newest first. -/
def tokenize : List Char → TkMode → List Tok → Option (List Tok)
  | [], .top, acc => some acc
  | [], .rep0 raw, acc => some ((repFallback raw [] false).reverse ++ acc)
  | [], .rep1 rawm rawn, acc => some ((repFallback rawm rawn true).reverse ++ acc)
  | [], _, _ => none
  | c :: rest, .top, acc =>
    (match topTok c with
     | .inl t => tokenize rest .top (t :: acc)
     | .inr m => tokenize rest m acc)
  | c :: rest, .esc, acc =>
    (match escTok c with
     | some t => tokenize rest .top (t :: acc)
     | none => none)
  | c :: rest, .grp, acc =>
    if c = '?' then tokenize rest .grpQ acc
    else
      (match topTok c with
       | .inl t => tokenize rest .top (t :: .lpar :: acc)
       | .inr m => tokenize rest m (.lpar :: acc))
  | c :: rest, .grpQ, acc =>
    if c = ':' then tokenize rest .top (.lpar :: acc)
    else if c = 'P' then tokenize rest .grpP acc
    else none
  | c :: rest, .grpP, acc =>
    if c = '<' then tokenize rest (.grpName false) acc
    else none
  | c :: rest, .grpName seen, acc =>
    if c = '>' then
      if seen then tokenize rest .top (.lpar :: acc) else none
    else if c = '_' || c.isAlpha || (seen && c.isDigit) then
      tokenize rest (.grpName true) acc
    else none
  | c :: rest, .clsCaret, acc =>
    if c = '^' then tokenize rest (.clsFirst true) acc
    else if c = '\\' then tokenize rest (.clsEsc false [] none) acc
    else tokenize rest (.clsHave false [] c) acc
  | c :: rest, .clsFirst neg, acc =>
    if c = '\\' then tokenize rest (.clsEsc neg [] none) acc
    else tokenize rest (.clsHave neg [] c) acc
  | c :: rest, .clsNone neg rs, acc =>
    if c = ']' then tokenize rest .top (.cls (.cls neg rs) :: acc)
    else if c = '\\' then tokenize rest (.clsEsc neg rs none) acc
    else tokenize rest (.clsHave neg rs c) acc
  | c :: rest, .clsHave neg rs p, acc =>
    if c = ']' then tokenize rest .top (.cls (.cls neg (rs ++ [(p, p)])) :: acc)
    else if c = '-' then tokenize rest (.clsDash neg rs p) acc
    else if c = '\\' then tokenize rest (.clsEsc neg (rs ++ [(p, p)]) none) acc
    else tokenize rest (.clsHave neg (rs ++ [(p, p)]) c) acc
  | c :: rest, .clsDash neg rs p, acc =>
    if c = ']' then
      tokenize rest .top (.cls (.cls neg (rs ++ [(p, p), ('-', '-')])) :: acc)
    else if c = '\\' then tokenize rest (.clsEsc neg rs (some p)) acc
    else if p ≤ c then tokenize rest (.clsNone neg (rs ++ [(p, c)])) acc
    else none
  | c :: rest, .clsRanges neg rs, acc =>
    if c = ']' then tokenize rest .top (.cls (.cls neg rs) :: acc)
    else if c = '-' then tokenize rest (.clsRangesDash neg rs) acc
    else if c = '\\' then tokenize rest (.clsEsc neg rs none) acc
    else tokenize rest (.clsHave neg rs c) acc
  | c :: rest, .clsRangesDash neg rs, acc =>
    if c = ']' then
      tokenize rest .top (.cls (.cls neg (rs ++ [('-', '-')])) :: acc)
    else none
  | c :: rest, .clsEsc neg rs pend, acc =>
    (match classEsc c with
     | none => none
     | some (.lit d) =>
       (match pend with
        | none => tokenize rest (.clsHave neg rs d) acc
        | some p =>
          if p ≤ d then tokenize rest (.clsNone neg (rs ++ [(p, d)])) acc
          else none)
     | some (.ranges rs') =>
       (match pend with
        | none => tokenize rest (.clsRanges neg (rs ++ rs')) acc
        | some _ => none))
  | c :: rest, .rep0 raw, acc =>
    if c.isDigit then tokenize rest (.rep0 (raw ++ [c])) acc
    else if c = ',' then tokenize rest (.rep1 raw []) acc
    else if c = Char.ofNat 0x7D then
      (match raw with
       | [] => tokenize rest .top (Tok.lit (Char.ofNat 0x7D) ::
           (repFallback [] [] false).reverse ++ acc)
       | _ => tokenize rest .top (.rep (digitsVal raw) (some (digitsVal raw)) :: acc))
    else
      (match topTok c with
       | .inl t => tokenize rest .top (t :: (repFallback raw [] false).reverse ++ acc)
       | .inr m => tokenize rest m ((repFallback raw [] false).reverse ++ acc))
  | c :: rest, .rep1 rawm rawn, acc =>
    if c.isDigit then tokenize rest (.rep1 rawm (rawn ++ [c])) acc
    else if c = Char.ofNat 0x7D then
      (match rawm, rawn with
       | [], [] => tokenize rest .top (Tok.lit (Char.ofNat 0x7D) ::
           (repFallback [] [] true).reverse ++ acc)
       | _, _ =>
         let m := digitsVal rawm
         (match rawn with
          | [] => tokenize rest .top (.rep m none :: acc)
          | _ =>
            if m ≤ digitsVal rawn then
              tokenize rest .top (.rep m (some (digitsVal rawn)) :: acc)
            else none))
    else
      (match topTok c with
       | .inl t => tokenize rest .top (t :: (repFallback rawm rawn true).reverse ++ acc)
       | .inr m => tokenize rest m ((repFallback rawm rawn true).reverse ++ acc))

/-- Quantifier state of the parser: `cant` = nothing to repeat, `can` =
a quantifiable atom precedes, `lazyOk` = a quantifier was just applied
and one lazy `?` may follow (lazy matching has the same boolean-match
language as greedy). -/
inductive QState where
  | cant : QState
  | can : QState
  | lazyOk : QState
deriving DecidableEq, Repr

/-- One parse frame: completed alternation branches (newest first) and
the atoms of the current branch (newest first). -/
structure PFrame where
  branches : List Regex
  atoms : List Regex
deriving DecidableEq, Repr

def finishConcat (atoms : List Regex) : Regex :=
  atoms.foldl (fun acc a => .cat a acc) .eps

def finishFrame (f : PFrame) : Regex :=
  f.branches.foldl (fun acc b => .alt b acc) (finishConcat f.atoms)

/-- `powCat k r tail` is `r·r·…·r·tail` with `k` copies of `r`. -/
def powCat : Nat → Regex → Regex → Regex
  | 0, _, tail => tail
  | k + 1, r, tail => .cat r (powCat k r tail)

/-- Desugar the bounded repeats `{m}`, `{m,}`, `{m,n}`. -/
def repExpand (m : Nat) (n : Option Nat) (r : Regex) : Regex :=
  match n with
  | none => powCat m r (.star r)
  | some nn => powCat m r (powCat (nn - m) (.alt r .eps) .eps)

/-- Token parser: a single pass with an explicit frame stack for
groups. -/
def parseToks : List Tok → PFrame → QState → List PFrame → Option Regex
  | [], f, _, stack =>
    (match stack with
     | [] => some (finishFrame f)
     | _ => none)
  | t :: ts, f, q, stack =>
    (match t with
     | .lit c => parseToks ts ⟨f.branches, .chr c :: f.atoms⟩ .can stack
     | .dot => parseToks ts ⟨f.branches, .any :: f.atoms⟩ .can stack
     | .cls r => parseToks ts ⟨f.branches, r :: f.atoms⟩ .can stack
     | .anchor r => parseToks ts ⟨f.branches, r :: f.atoms⟩ .cant stack
     | .star =>
       (match q, f.atoms with
        | .can, a :: as => parseToks ts ⟨f.branches, .star a :: as⟩ .lazyOk stack
        | _, _ => none)
     | .plus =>
       (match q, f.atoms with
        | .can, a :: as => parseToks ts ⟨f.branches, .cat a (.star a) :: as⟩ .lazyOk stack
        | _, _ => none)
     | .quest =>
       (match q, f.atoms with
        | .can, a :: as => parseToks ts ⟨f.branches, .alt a .eps :: as⟩ .lazyOk stack
        | .lazyOk, _ => parseToks ts f .cant stack
        | _, _ => none)
     | .rep m n =>
       (match q, f.atoms with
        | .can, a :: as => parseToks ts ⟨f.branches, repExpand m n a :: as⟩ .lazyOk stack
        | _, _ => none)
     | .bar => parseToks ts ⟨finishConcat f.atoms :: f.branches, []⟩ .cant stack
     | .lpar => parseToks ts ⟨[], []⟩ .cant (f :: stack)
     | .rpar =>
       (match stack with
        | [] => none
        | parent :: stk =>
          parseToks ts ⟨parent.branches, finishFrame f :: parent.atoms⟩ .can stk))

/-- Model of `re.compile` on the regular fragment of Python pattern
syntax: `none` is `re.error`.  Word boundaries, lookaround, inline
flags/comments and backreferences are outside the model and also map to
`none`. -/
def Regex.compile (pattern : String) : Option Regex :=
  (tokenize pattern.data .top []).bind
    (fun toks => parseToks toks.reverse ⟨[], []⟩ .cant [])

/-- Characters that stand for themselves at the top level of a pattern
(order matches the dispatch order of `topTok`). -/
def IsLit (c : Char) : Prop :=
  c ∉ ['\\', '(', ')', '[', '|', '*', '+', '?', Char.ofNat 0x7B, '.', '^', '$']

/-- A token character whose compiled atom matches (at least) itself:
an ordinary literal character, or the wildcard `.`. -/
def IsSelfMatching (c : Char) : Prop := IsLit c ∨ c = '.'

instance (c : Char) : Decidable (IsLit c) := by unfold IsLit; infer_instance

instance (c : Char) : Decidable (IsSelfMatching c) := by
  unfold IsSelfMatching; infer_instance

def selfTok (c : Char) : Tok := if c = '.' then .dot else .lit c

/-- Python values as far as the pipeline inspects them: `pynone` is
Python `None`; `dict` carries the optional boolean under the key used by
the success-flag quirk, plus an opaque payload; `other` is any non-dict
value. -/
inductive PyVal (α : Type) where
  | pynone : PyVal α
  | dict : Option Bool → α → PyVal α
  | other : α → PyVal α
deriving DecidableEq, Repr

/-- `x is None` in Python. -/
def PyVal.isNone {α : Type} : PyVal α → Bool
  | .pynone => true
  | _ => false

/-- `cache.py`: single cache entry with expiration timestamp. -/
structure CacheEntry (α : Type) where
  value : PyVal α
  expires_at : Int
deriving DecidableEq, Repr

/-- `cache.py` `InMemoryCache`: the `OrderedDict` becomes an association
list in recency order — head is least recently used, tail most recent. -/
structure InMemoryCache (α : Type) where
  default_ttl : Int
  max_entries : Nat
  entries : List (String × CacheEntry α)
deriving DecidableEq, Repr

/-- A fresh cache, as built by `InMemoryCache.__init__`. -/
def emptyCache (α : Type) (default_ttl : Int) (max_entries : Nat) : InMemoryCache α :=
  ⟨default_ttl, max_entries, []⟩

/-- Dictionary lookup `self._cache[key]` / `key in self._cache`. -/
def lookupEntry {α : Type} : List (String × CacheEntry α) → String → Option (CacheEntry α)
  | [], _ => none
  | p :: tl, key => if p.1 = key then some p.2 else lookupEntry tl key

/-- Dictionary deletion `del self._cache[key]` (all occurrences; reachable
states have unique keys, where this removes exactly the entry). -/
def removeKey {α : Type} : List (String × CacheEntry α) → String → List (String × CacheEntry α)
  | [], _ => []
  | p :: tl, key => if p.1 = key then removeKey tl key else p :: removeKey tl key

/-- `InMemoryCache.get`: miss on absent key; expired entries are removed
and report a miss; live entries are moved to the most-recently-used
position and their value returned.  Python signals a miss by returning
`None`, so the result type is `PyVal` with `pynone` as the miss value. -/
def InMemoryCache.get {α : Type} (c : InMemoryCache α) (key : String) (now : Int) :
    PyVal α × InMemoryCache α :=
  match lookupEntry c.entries key with
  | none => (.pynone, c)
  | some entry =>
    if entry.expires_at ≤ now then
      (.pynone, { c with entries := removeKey c.entries key })
    else
      (entry.value, { c with entries := removeKey c.entries key ++ [(key, entry)] })

/-- `InMemoryCache.set`: computes `expires_at = now + effective_ttl`,
evicts the least-recently-used (head) entry when a genuinely new key is
inserted at or above capacity, then stores the entry at the
most-recently-used position.  Returns `none` in the one case where the
Python raises: `popitem` on an empty store (capacity 0). -/
def InMemoryCache.set {α : Type} (c : InMemoryCache α) (key : String) (value : PyVal α)
    (ttl : Option Int) (now : Int) : Option (InMemoryCache α) :=
  let effective_ttl := ttl.getD c.default_ttl
  let expires_at := now + effective_ttl
  if c.max_entries ≤ c.entries.length ∧ (lookupEntry c.entries key).isNone = true then
    match c.entries with
    | [] => none
    | _ :: tl => some { c with entries := tl ++ [(key, ⟨value, expires_at⟩)] }
  else
    some { c with entries := removeKey c.entries key ++ [(key, ⟨value, expires_at⟩)] }

/-- `InMemoryCache.invalidate`: remove the key if present. -/
def InMemoryCache.invalidate {α : Type} (c : InMemoryCache α) (key : String) :
    InMemoryCache α :=
  { c with entries := removeKey c.entries key }

/-- `InMemoryCache.invalidatePattern`: compile the pattern (an `error`
models the propagating `re.error`), collect the keys the regex matches
from the start, delete them, and return how many were removed. -/
def InMemoryCache.invalidatePattern {α : Type} (c : InMemoryCache α) (pattern : String) :
    Except Unit (Nat × InMemoryCache α) :=
  match Regex.compile pattern with
  | none => .error ()
  | some r =>
    .ok (((c.entries.filter (fun p => r.matchStart p.1.data)).map Prod.fst).length,
      { c with entries := c.entries.filter (fun p => !(r.matchStart p.1.data)) })

/-- `InMemoryCache.clear`. -/
def InMemoryCache.clear {α : Type} (c : InMemoryCache α) : InMemoryCache α :=
  { c with entries := [] }

/-- `InMemoryCache.stats`: current entry count (expired included), count
of entries past expiration right now, and the configured capacity. -/
structure CacheStats where
  current : Nat
  expired : Nat
  max_entries : Nat
deriving DecidableEq, Repr

def InMemoryCache.stats {α : Type} (c : InMemoryCache α) (now : Int) : CacheStats :=
  ⟨c.entries.length,
   (c.entries.filter (fun p => decide (p.2.expires_at ≤ now))).length,
   c.max_entries⟩

/-- Transport-level failures: `httpx.TimeoutException` / `httpx.RequestError`. -/
inductive TransportErr where
  | timeout
  | connection
deriving DecidableEq, Repr

/-- What one network attempt yields: a transport failure, or a response
with a status code, an optional integer `Retry-After` header, and a
parsed JSON body. -/
inductive NetResult (α : Type) where
  | transport : TransportErr → NetResult α
  | response : Nat → Option Int → PyVal α → NetResult α
deriving DecidableEq, Repr

/-- The failures `_request` can raise, matching the exception taxonomy of
`client.py` / `exceptions.py`. -/
inductive RequestError where
  | auth
  | notFound
  | rateLimit : Int → RequestError
  | apiError : Nat → RequestError
  | notInitialized
  | cacheKeyError
  | regexError
  | exhausted : Nat → Option TransportErr → RequestError
deriving DecidableEq, Repr

/-- Result of one `_request` call: the outcome, the cache afterwards, how
many network attempts were issued, and the backoff sleeps performed. -/
structure ReqOutcome (α : Type) where
  result : Except RequestError (PyVal α)
  cache : InMemoryCache α
  networkCalls : Nat
  sleeps : List ℚ
deriving DecidableEq, Repr

/-- The status-code classification ladder of `_request`, in source order:
401/403 → auth, 404 → not found, 429 → rate limit with the
`Retry-After` header defaulting to 60, then `>= 500` and `>= 400` →
API error carrying the status code. -/
def classifyStatus (status : Nat) (retryAfter : Option Int) : Option RequestError :=
  if status = 401 then some .auth
  else if status = 403 then some .auth
  else if status = 404 then some .notFound
  else if status = 429 then some (.rateLimit (retryAfter.getD 60))
  else if 500 ≤ status then some (.apiError status)
  else if 400 ≤ status then some (.apiError status)
  else none

/-- The World Anvil success-flag quirk:
`isinstance(data, dict) and not data.get("success", True)`. -/
def successFlagFails {α : Type} : PyVal α → Bool
  | .dict s _ => !(s.getD true)
  | _ => false

/-- Is the method one of the mutating verbs of `_request`? -/
def isWriteMethod (method : String) : Bool :=
  decide (method = "POST") || decide (method = "PATCH") ||
    decide (method = "PUT") || decide (method = "DELETE")

/-- Python `str.split` with a one-character separator, over char lists
(structural, so that concrete runs reduce in the kernel). -/
def splitOnChar (sep : Char) : List Char → List (List Char)
  | [] => [[]]
  | c :: rest =>
    match splitOnChar sep rest with
    | [] => [[]]
    | h :: t => if c = sep then [] :: h :: t else (c :: h) :: t

/-- `path.split("/")[1] if "/" in path else ""`. -/
def resourceTypeOf (path : String) : String :=
  if path.data.contains '/' then String.mk ((splitOnChar '/' path.data).getD 1 []) else ""

/-- The retry loop of `_request` (`for attempt in range(self.max_retries)`),
unrolled on the number of remaining iterations.  `attempt` is the current
loop index, `calls`/`sleeps` accumulate the trace, and `lastErr` is
`last_error`.  Classification failures escape the loop immediately (they
are not caught by the transport-only `except` clauses); transport
failures sleep `2**attempt + random()*0.1` when attempts remain and
retry; a successful response stores GET responses under the cache key and
invalidates `.*resource_type.*` after mutating verbs. -/
def requestLoop {α : Type} (method path : String) (cacheKeyOpt : Option String)
    (cacheTtl : Option Int) (maxRetries : Nat) (defaultCacheTtl : Int)
    (net : Nat → NetResult α) (jitter : Nat → ℚ) (now : Int) :
    InMemoryCache α → Nat → Nat → Nat → List ℚ → Option TransportErr → ReqOutcome α
  | cache, 0, _, calls, sleeps, lastErr =>
      ⟨.error (.exhausted maxRetries lastErr), cache, calls, sleeps⟩
  | cache, remaining + 1, attempt, calls, sleeps, _ =>
    match net attempt with
    | .transport e =>
      let sleeps' := if attempt < maxRetries - 1
        then sleeps ++ [(2 : ℚ) ^ attempt + jitter attempt * (1 / 10)]
        else sleeps
      requestLoop method path cacheKeyOpt cacheTtl maxRetries defaultCacheTtl
        net jitter now cache remaining (attempt + 1) (calls + 1) sleeps' (some e)
    | .response status retryAfter body =>
      match classifyStatus status retryAfter with
      | some err => ⟨.error err, cache, calls + 1, sleeps⟩
      | none =>
        if successFlagFails body then
          ⟨.error (.apiError status), cache, calls + 1, sleeps⟩
        else
          let cacheStep : Option (InMemoryCache α) :=
            match cacheKeyOpt with
            | some k =>
              if method = "GET" ∧ k ≠ "" then
                cache.set k body (some (cacheTtl.getD defaultCacheTtl)) now
              else some cache
            | none => some cache
          match cacheStep with
          | none => ⟨.error .cacheKeyError, cache, calls + 1, sleeps⟩
          | some cache1 =>
            if isWriteMethod method then
              let rt := resourceTypeOf path
              if rt ≠ "" then
                match cache1.invalidatePattern ((".*" ++ rt) ++ ".*") with
                | .error _ => ⟨.error .regexError, cache1, calls + 1, sleeps⟩
                | .ok (_, cache2) => ⟨.ok body, cache2, calls + 1, sleeps⟩
              else ⟨.ok body, cache1, calls + 1, sleeps⟩
            else ⟨.ok body, cache1, calls + 1, sleeps⟩

/-- `WorldAnvilClient._request`: consult the cache for GET requests with a
truthy cache key (a cached `None` is indistinguishable from a miss), then
check that the HTTP client is initialized, then run the retry loop. -/
def request {α : Type} (cache : InMemoryCache α) (initialized : Bool)
    (method path : String) (cacheKeyOpt : Option String) (cacheTtl : Option Int)
    (maxRetries : Nat) (defaultCacheTtl : Int)
    (net : Nat → NetResult α) (jitter : Nat → ℚ) (now : Int) : ReqOutcome α :=
  let consult : Option (PyVal α) × InMemoryCache α :=
    match cacheKeyOpt with
    | some k =>
      if method = "GET" ∧ k ≠ "" then
        let res := cache.get k now
        if res.1.isNone then (none, res.2) else (some res.1, res.2)
      else (none, cache)
    | none => (none, cache)
  match consult with
  | (some v, c1) => ⟨.ok v, c1, 0, []⟩
  | (none, c1) =>
    if initialized then
      requestLoop method path cacheKeyOpt cacheTtl maxRetries defaultCacheTtl
        net jitter now c1 maxRetries 0 0 [] none
    else ⟨.error .notInitialized, c1, 0, []⟩

/-- The keys of a cache, in recency order. -/
def keysOf {α : Type} (l : List (String × CacheEntry α)) : List String :=
  l.map Prod.fst

/-- One public cache operation, with the wall-clock instant at which it
runs where relevant. -/
inductive CacheOp (α : Type) where
  | get : String → Int → CacheOp α
  | set : String → PyVal α → Option Int → Int → CacheOp α
  | invalidate : String → CacheOp α
  | invalidatePattern : String → CacheOp α
  | clear : CacheOp α

/-- The state after one operation; an operation that raises (failed `set`
with capacity 0, invalid pattern) leaves the state unchanged, as the
Python exception is raised before any mutation. -/
def applyOp {α : Type} (c : InMemoryCache α) : CacheOp α → InMemoryCache α
  | .get k now => (c.get k now).2
  | .set k v t now => (c.set k v t now).getD c
  | .invalidate k => c.invalidate k
  | .invalidatePattern p =>
    match c.invalidatePattern p with
    | .ok q => q.2
    | .error _ => c
  | .clear => c.clear

def applyOps {α : Type} (c : InMemoryCache α) (ops : List (CacheOp α)) : InMemoryCache α :=
  ops.foldl applyOp c

/-- The concrete LRU scenario: capacity 2; `set(a,1)`; `set(b,2)`;
`get(a)`; `set(c,3)`. -/
def lruScenario : Option (InMemoryCache Nat) :=
  (((emptyCache Nat 300 2).set ("a") (.other 1) none 0).bind
    (fun c1 => c1.set ("b") (.other 2) none 0)).bind
    (fun c2 => ((c2.get ("a") 0).2).set ("c") (.other 3) none 0)

/-- The concrete update scenario: capacity 2; `set(a,1)`; `set(b,2)`;
`set(a,1)`. -/
def updScenario : Option (InMemoryCache Nat) :=
  (((emptyCache Nat 300 2).set ("a") (.other 1) none 0).bind
    (fun c1 => c1.set ("b") (.other 2) none 0)).bind
    (fun c2 => c2.set ("a") (.other 1) none 0)

/-- The concrete read–mutate–read sequence of the spec: a cached GET, a
successful PATCH on the same resource family, then the same GET again. -/
def rwRead1 : ReqOutcome Nat :=
  request (emptyCache Nat 300 1000) true ("GET") ("/world/123")
    (some ("world:123:1")) (some 300) 3 300
    (fun _ => .response 200 none (.other 7)) (fun _ => 0) 0

def rwWrite : ReqOutcome Nat :=
  request rwRead1.cache true ("PATCH") ("/world/123") none none 3 300
    (fun _ => .response 200 none (.other 8)) (fun _ => 0) 0

def rwRead2 : ReqOutcome Nat :=
  request rwWrite.cache true ("GET") ("/world/123")
    (some ("world:123:1")) (some 300) 3 300
    (fun _ => .response 200 none (.other 7)) (fun _ => 0) 0

theorem Regex.nullableAt_iff (a : Bool) (t : List Char) (r : Regex) :
    r.nullableAt a t = true ↔ PM a r [] t := by
  induction r with
  | fail =>
    simp only [nullableAt, Bool.false_eq_true, false_iff]
    intro h; cases h
  | eps => simp only [nullableAt, true_iff]; exact PM.eps
  | chr c =>
    simp only [nullableAt, Bool.false_eq_true, false_iff]
    intro h; cases h
  | any =>
    simp only [nullableAt, Bool.false_eq_true, false_iff]
    intro h; cases h
  | cls neg rs =>
    simp only [nullableAt, Bool.false_eq_true, false_iff]
    intro h; cases h
  | bol =>
    simp only [nullableAt]
    constructor
    · intro h; rw [h]; exact PM.bol
    · intro h; cases h; rfl
  | eol =>
    simp only [nullableAt, Bool.or_eq_true, decide_eq_true_eq]
    constructor
    · rintro (rfl | rfl)
      · exact PM.eolNil
      · exact PM.eolNl
    · intro h
      cases h
      · exact Or.inl rfl
      · exact Or.inr rfl
  | eos =>
    simp only [nullableAt, decide_eq_true_eq]
    constructor
    · rintro rfl; exact PM.eos
    · intro h; cases h; rfl
  | alt r₁ r₂ ih₁ ih₂ =>
    simp only [nullableAt, Bool.or_eq_true, ih₁, ih₂]
    constructor
    · rintro (h | h)
      · exact PM.altL h
      · exact PM.altR h
    · intro h
      cases h with
      | altL h => exact Or.inl h
      | altR h => exact Or.inr h
  | cat r₁ r₂ ih₁ ih₂ =>
    simp only [nullableAt, Bool.and_eq_true, ih₁, ih₂]
    constructor
    · rintro ⟨h₁, h₂⟩
      have h₂' : PM (a && List.isEmpty ([] : List Char)) r₂ [] t := by simpa using h₂
      have := @PM.cat a r₁ r₂ [] [] t h₁ h₂'
      simpa using this
    · intro h
      have aux : ∀ s, PM a (.cat r₁ r₂) s t → s = [] → PM a r₁ [] t ∧ PM a r₂ [] t := by
        intro s hs
        cases hs with
        | cat h₁ h₂ =>
          intro heq
          have hn := List.append_eq_nil.mp heq
          rw [hn.1] at h₁ h₂
          rw [hn.2] at h₁ h₂
          simp only [List.nil_append] at h₁
          simp only [List.isEmpty_nil, Bool.and_true] at h₂
          exact ⟨h₁, h₂⟩
      exact aux [] h rfl
  | star r ih =>
    simp only [nullableAt, true_iff]
    exact PM.starNil

theorem PM.derivAt_sound {r : Regex} {a : Bool} {c : Char} {t p q : List Char}
    (h : PM false (r.derivAt a t c) p q) (ht : t = p ++ q) : PM a r (c :: p) q := by
  induction r generalizing p q with
  | fail => simp only [Regex.derivAt] at h; cases h
  | eps => simp only [Regex.derivAt] at h; cases h
  | chr c' =>
    simp only [Regex.derivAt] at h
    by_cases hc : c = c'
    · rw [if_pos hc] at h
      cases h
      rw [hc]
      exact PM.chr c'
    · rw [if_neg hc] at h; cases h
  | any =>
    simp only [Regex.derivAt] at h
    cases h
    exact PM.any c
  | cls neg rs =>
    simp only [Regex.derivAt] at h
    by_cases hc : clsMatch neg rs c = true
    · rw [if_pos hc] at h
      cases h
      exact PM.cls hc
    · rw [if_neg hc] at h; cases h
  | bol => simp only [Regex.derivAt] at h; cases h
  | eol => simp only [Regex.derivAt] at h; cases h
  | eos => simp only [Regex.derivAt] at h; cases h
  | alt r₁ r₂ ih₁ ih₂ =>
    simp only [Regex.derivAt] at h
    cases h with
    | altL h => exact PM.altL (ih₁ h ht)
    | altR h => exact PM.altR (ih₂ h ht)
  | cat r₁ r₂ ih₁ ih₂ =>
    simp only [Regex.derivAt] at h
    by_cases hn : r₁.nullableAt a (c :: t) = true
    · rw [if_pos hn] at h
      cases h with
      | altL h =>
        cases h with
        | cat h₁ h₂ =>
          rename_i s₁ s₂
          have h₂' : PM false r₂ s₂ q := by simpa using h₂
          have hr₁ := ih₁ h₁ (by rw [ht, List.append_assoc])
          have h₂'' : PM (a && (c :: s₁).isEmpty) r₂ s₂ q := by simpa using h₂'
          have := PM.cat hr₁ h₂''
          simpa using this
      | altR h =>
        have hr₂ := ih₂ h ht
        have h₁ : PM a r₁ [] (c :: t) := (Regex.nullableAt_iff _ _ _).mp hn
        have h₁' : PM a r₁ [] ((c :: p) ++ q) := by
          rw [List.cons_append, ← ht]
          exact h₁
        have hr₂' : PM (a && List.isEmpty ([] : List Char)) r₂ (c :: p) q := by
          simpa using hr₂
        have := @PM.cat a r₁ r₂ [] (c :: p) q h₁' hr₂'
        simpa using this
    · rw [if_neg hn] at h
      cases h with
      | cat h₁ h₂ =>
        rename_i s₁ s₂
        have h₂' : PM false r₂ s₂ q := by simpa using h₂
        have hr₁ := ih₁ h₁ (by rw [ht, List.append_assoc])
        have h₂'' : PM (a && (c :: s₁).isEmpty) r₂ s₂ q := by simpa using h₂'
        have := PM.cat hr₁ h₂''
        simpa using this
  | star r ih =>
    simp only [Regex.derivAt] at h
    cases h with
    | cat h₁ h₂ =>
      rename_i s₁ s₂
      have h₂' : PM false (.star r) s₂ q := by simpa using h₂
      have hr := ih h₁ (by rw [ht, List.append_assoc])
      have h₂'' : PM (a && (c :: s₁).isEmpty) (.star r) s₂ q := by simpa using h₂'
      have := PM.starCons hr h₂''
      simpa using this

theorem PM.derivAt_complete {a : Bool} {r : Regex} {s t : List Char}
    (h : PM a r s t) :
    ∀ c p, s = c :: p → PM false (r.derivAt a (p ++ t) c) p t := by
  induction h with
  | eps => intro c p hs; cases hs
  | chr c' =>
    intro c p hs
    rw [List.cons.injEq] at hs
    obtain ⟨hc, hp⟩ := hs
    subst hc
    subst hp
    simp only [Regex.derivAt, if_pos rfl]
    exact PM.eps
  | any c' =>
    intro c p hs
    rw [List.cons.injEq] at hs
    obtain ⟨hc, hp⟩ := hs
    subst hp
    simp only [Regex.derivAt]
    exact PM.eps
  | cls hm =>
    intro c p hs
    rw [List.cons.injEq] at hs
    obtain ⟨hc, hp⟩ := hs
    subst hc
    subst hp
    simp only [Regex.derivAt, if_pos hm]
    exact PM.eps
  | bol => intro c p hs; cases hs
  | eolNil => intro c p hs; cases hs
  | eolNl => intro c p hs; cases hs
  | eos => intro c p hs; cases hs
  | altL h ih =>
    intro c p hs
    simp only [Regex.derivAt]
    exact PM.altL (ih c p hs)
  | altR h ih =>
    intro c p hs
    simp only [Regex.derivAt]
    exact PM.altR (ih c p hs)
  | cat h₁ h₂ ih₁ ih₂ =>
    rename_i a r₁ r₂ s₁ s₂ t
    intro c p hs
    simp only [Regex.derivAt]
    cases s₁ with
    | nil =>
      rw [List.nil_append] at hs
      simp only [List.isEmpty_nil, Bool.and_true] at h₂ ih₂
      have hn : r₁.nullableAt a (c :: (p ++ t)) = true := by
        apply (Regex.nullableAt_iff _ _ _).mpr
        rw [← List.cons_append, ← hs]
        exact h₁
      rw [if_pos hn]
      exact PM.altR (ih₂ c p hs)
    | cons c₁ p₁ =>
      rw [List.cons_append, List.cons.injEq] at hs
      obtain ⟨hc, hp⟩ := hs
      subst hc
      simp only [List.isEmpty_cons, Bool.and_false] at h₂ ih₂
      have ih₁' := ih₁ c₁ p₁ rfl
      have h₂'' : PM (false && p₁.isEmpty) r₂ s₂ t := by simpa using h₂
      have hcat := PM.cat ih₁' h₂''
      rw [← hp, List.append_assoc]
      by_cases hn : r₁.nullableAt a (c₁ :: (p₁ ++ (s₂ ++ t))) = true
      · rw [if_pos hn]
        exact PM.altL hcat
      · rw [if_neg hn]
        exact hcat
  | starNil => intro c p hs; cases hs
  | starCons h₁ h₂ ih₁ ih₂ =>
    rename_i a r s₁ s₂ t
    intro c p hs
    cases s₁ with
    | nil =>
      rw [List.nil_append] at hs
      simp only [List.isEmpty_nil, Bool.and_true] at h₂ ih₂
      exact ih₂ c p hs
    | cons c₁ p₁ =>
      rw [List.cons_append, List.cons.injEq] at hs
      obtain ⟨hc, hp⟩ := hs
      subst hc
      simp only [Regex.derivAt]
      have ih₁' := ih₁ c₁ p₁ rfl
      have h₂'' : PM (false && p₁.isEmpty) (.star r) s₂ t := by simpa using h₂
      have hcat := PM.cat ih₁' h₂''
      rw [← hp, List.append_assoc]
      exact hcat

theorem Regex.matchAt_iff (s : List Char) :
    ∀ (a : Bool) (r : Regex),
      r.matchAt a s = true ↔ ∃ p q, s = p ++ q ∧ PM a r p q := by
  induction s with
  | nil =>
    intro a r
    simp only [matchAt, nullableAt_iff]
    constructor
    · intro h
      exact ⟨[], [], rfl, h⟩
    · rintro ⟨p, q, hpq, hm⟩
      have hn := List.append_eq_nil.mp hpq.symm
      rw [hn.1, hn.2] at hm
      exact hm
  | cons c t ih =>
    intro a r
    simp only [matchAt, Bool.or_eq_true, nullableAt_iff, ih]
    constructor
    · rintro (h | ⟨p, q, hpq, hm⟩)
      · exact ⟨[], c :: t, rfl, h⟩
      · exact ⟨c :: p, q, by rw [hpq, List.cons_append],
          PM.derivAt_sound hm hpq⟩
    · rintro ⟨p, q, hpq, hm⟩
      cases p with
      | nil =>
        rw [List.nil_append] at hpq
        subst hpq
        exact Or.inl hm
      | cons c' p' =>
        rw [List.cons_append, List.cons.injEq] at hpq
        obtain ⟨hc, hs⟩ := hpq
        subst hc
        refine Or.inr ⟨p', q, hs, ?_⟩
        have := PM.derivAt_complete hm c p' rfl
        rwa [hs]

theorem PM.star_any (s : List Char) : ∀ (a : Bool) (t : List Char), PM a (.star .any) s t := by
  induction s with
  | nil => intro a t; exact PM.starNil
  | cons c cs ih =>
    intro a t
    have h₂ : PM (a && List.isEmpty ([c] : List Char)) (.star .any) cs t := by
      simpa using ih false t
    have := PM.starCons (@PM.any a (cs ++ t) c) h₂
    simpa using this

theorem PM.selfAtom_self (c : Char) (a : Bool) (t : List Char) :
    PM a (selfAtom c) [c] t := by
  unfold selfAtom
  by_cases hc : c = '.'
  · rw [if_pos hc]
    exact PM.any c
  · rw [if_neg hc]
    exact PM.chr c

theorem PM.atomCat_self (tok : List Char) :
    ∀ (a : Bool) (k : Regex) (rest t : List Char),
      PM (a && tok.isEmpty) k rest t → PM a (atomCat tok k) (tok ++ rest) t := by
  induction tok with
  | nil =>
    intro a k rest t hk
    simpa using hk
  | cons c cs ih =>
    intro a k rest t hk
    have hk' : PM (false && cs.isEmpty) k rest t := by
      simpa using hk
    have htail : PM false (atomCat cs k) (cs ++ rest) t := ih false k rest t hk'
    have htail' : PM (a && List.isEmpty ([c] : List Char)) (atomCat cs k) (cs ++ rest) t := by
      simpa using htail
    have := PM.cat (PM.selfAtom_self c a ((cs ++ rest) ++ t)) htail'
    simpa [atomCat] using this

/-- Any subject containing the token is matched from the start by
`.*token.*`. -/
theorem Regex.matchStart_containsRe_of_infix (tok u v : List Char) :
    (containsRe tok).matchStart (u ++ tok ++ v) = true := by
  unfold Regex.matchStart
  rw [Regex.matchAt_iff]
  refine ⟨u ++ tok ++ v, [], by rw [List.append_nil], ?_⟩
  unfold containsRe
  have h3 : ∀ b : Bool, PM b (.cat (.star .any) .eps) v [] := by
    intro b
    have he : PM (b && v.isEmpty) Regex.eps [] [] := PM.eps
    have := PM.cat (PM.star_any v b ([] ++ [])) he
    simpa using this
  have h2' : PM (true && u.isEmpty) (atomCat tok (.cat (.star .any) .eps)) (tok ++ v) [] :=
    PM.atomCat_self tok (true && u.isEmpty) _ v [] (h3 _)
  have := PM.cat (PM.star_any u true ((tok ++ v) ++ [])) h2'
  simpa [List.append_assoc] using this

theorem topTok_selfMatching {c : Char} (h : IsSelfMatching c) :
    topTok c = .inl (selfTok c) := by
  rcases h with h | rfl
  · unfold IsLit at h
    simp only [List.mem_cons, List.not_mem_nil, or_false, not_or] at h
    obtain ⟨h1, h2, h3, h4, h5, h6, h7, h8, h9, h10, h11, h12⟩ := h
    unfold topTok selfTok
    rw [if_neg h1, if_neg h2, if_neg h3, if_neg h4, if_neg h5, if_neg h6, if_neg h7,
      if_neg h8, if_neg h9, if_neg h10, if_neg h11, if_neg h12, if_neg h10]
  · rfl

theorem tokenize_selfMatching (t : List Char) (h : ∀ c ∈ t, IsSelfMatching c) :
    ∀ (rest : List Char) (acc : List Tok),
      tokenize (t ++ rest) .top acc =
        tokenize rest .top ((t.map selfTok).reverse ++ acc) := by
  induction t with
  | nil => intro rest acc; simp
  | cons c cs ih =>
    intro rest acc
    have hc := h c (List.mem_cons_self c cs)
    have hcs : ∀ c' ∈ cs, IsSelfMatching c' :=
      fun c' h' => h c' (List.mem_cons_of_mem c h')
    have hstep : tokenize (c :: (cs ++ rest)) .top acc
        = tokenize (cs ++ rest) .top (selfTok c :: acc) := by
      show (match topTok c with
        | .inl t => tokenize (cs ++ rest) .top (t :: acc)
        | .inr m => tokenize (cs ++ rest) m acc) = _
      rw [topTok_selfMatching hc]
    rw [List.cons_append, hstep, ih hcs rest (selfTok c :: acc)]
    congr 1
    simp [List.append_assoc]

theorem parseToks_selfMatching (t : List Char) (h : ∀ c ∈ t, IsSelfMatching c) :
    ∀ (branches atoms : List Regex) (q : QState) (stack : List PFrame),
      parseToks (t.map selfTok ++ [Tok.dot, Tok.star]) ⟨branches, atoms⟩ q stack =
        parseToks [] ⟨branches, .star .any :: (t.map selfAtom).reverse ++ atoms⟩
          .lazyOk stack := by
  induction t with
  | nil => intro branches atoms q stack; rfl
  | cons c cs ih =>
    intro branches atoms q stack
    have hcs : ∀ c' ∈ cs, IsSelfMatching c' :=
      fun c' h' => h c' (List.mem_cons_of_mem c h')
    have hstep : parseToks (selfTok c :: (cs.map selfTok ++ [Tok.dot, Tok.star]))
          ⟨branches, atoms⟩ q stack
        = parseToks (cs.map selfTok ++ [Tok.dot, Tok.star])
          ⟨branches, selfAtom c :: atoms⟩ .can stack := by
      unfold selfTok selfAtom
      by_cases hdot : c = '.'
      · rw [if_pos hdot, if_pos hdot]
        rfl
      · rw [if_neg hdot, if_neg hdot]
        rfl
    rw [List.map_cons, List.cons_append, hstep, ih hcs branches (selfAtom c :: atoms) .can stack]
    congr 2
    simp [List.append_assoc]

theorem foldl_selfAtom_rev (t : List Char) (k : Regex) :
    List.foldl (fun acc a => Regex.cat a acc) k ((t.map selfAtom).reverse) = atomCat t k := by
  induction t generalizing k with
  | nil => simp [atomCat]
  | cons c cs ih =>
    simp only [List.map_cons, List.reverse_cons, List.foldl_append, List.foldl_cons,
      List.foldl_nil, atomCat]
    rw [ih]

/-- Compiling `.*token.*` for a token of self-matching characters yields
exactly the contains-pattern shape. -/
theorem Regex.compile_contains (tok : String) (h : ∀ c ∈ tok.data, IsSelfMatching c) :
    Regex.compile ((".*" ++ tok) ++ ".*") = some (containsRe tok.data) := by
  have hdata : ((".*" ++ tok) ++ ".*").data = '.' :: '*' :: (tok.data ++ ['.', '*']) := by
    obtain ⟨l⟩ := tok
    rfl
  unfold Regex.compile
  rw [hdata]
  have h2 : tokenize ('.' :: '*' :: (tok.data ++ ['.', '*'])) .top []
      = tokenize (tok.data ++ ['.', '*']) .top [Tok.star, Tok.dot] := rfl
  rw [h2, tokenize_selfMatching tok.data h (['.', '*']) [Tok.star, Tok.dot]]
  have h3 : tokenize ['.', '*'] .top ((tok.data.map selfTok).reverse ++ [Tok.star, Tok.dot])
      = some (Tok.star :: Tok.dot ::
          ((tok.data.map selfTok).reverse ++ [Tok.star, Tok.dot])) := rfl
  rw [h3]
  have h4 : (Tok.star :: Tok.dot ::
        ((tok.data.map selfTok).reverse ++ [Tok.star, Tok.dot])).reverse
      = Tok.dot :: Tok.star :: (tok.data.map selfTok ++ [Tok.dot, Tok.star]) := by
    simp
  show parseToks (Tok.star :: Tok.dot ::
      ((tok.data.map selfTok).reverse ++ [Tok.star, Tok.dot])).reverse ⟨[], []⟩ .cant []
    = some (containsRe tok.data)
  rw [h4]
  have h5 : parseToks (Tok.dot :: Tok.star ::
        (tok.data.map selfTok ++ [Tok.dot, Tok.star])) ⟨[], []⟩ .cant []
      = parseToks (tok.data.map selfTok ++ [Tok.dot, Tok.star])
        ⟨[], [.star .any]⟩ .lazyOk [] := rfl
  rw [h5, parseToks_selfMatching tok.data h [] [.star .any] .lazyOk []]
  show some (finishConcat (.star .any :: (tok.data.map selfAtom).reverse ++ [.star .any]))
    = some (containsRe tok.data)
  congr 1
  unfold finishConcat
  simp only [List.foldl_cons, List.foldl_append, List.foldl_nil]
  rw [foldl_selfAtom_rev]
  rfl

theorem lookupEntry_append_left_none {α : Type} {l₁ : List (String × CacheEntry α)}
    {k : String} (h : lookupEntry l₁ k = none) (l₂ : List (String × CacheEntry α)) :
    lookupEntry (l₁ ++ l₂) k = lookupEntry l₂ k := by
  induction l₁ with
  | nil => rfl
  | cons p tl ih =>
    simp only [lookupEntry] at h
    by_cases hp : p.1 = k
    · rw [if_pos hp] at h; cases h
    · rw [if_neg hp] at h
      simp only [List.cons_append, lookupEntry, if_neg hp]
      exact ih h

theorem lookupEntry_append_single_ne {α : Type} (l : List (String × CacheEntry α))
    {k k' : String} (e : CacheEntry α) (h : k' ≠ k) :
    lookupEntry (l ++ [(k', e)]) k = lookupEntry l k := by
  induction l with
  | nil => simp only [List.nil_append, lookupEntry, if_neg h]
  | cons p tl ih =>
    simp only [List.cons_append, lookupEntry]
    by_cases hp : p.1 = k
    · rw [if_pos hp, if_pos hp]
    · rw [if_neg hp, if_neg hp]
      exact ih

theorem lookupEntry_removeKey_self {α : Type} (l : List (String × CacheEntry α))
    (k : String) : lookupEntry (removeKey l k) k = none := by
  induction l with
  | nil => rfl
  | cons p tl ih =>
    simp only [removeKey]
    by_cases hp : p.1 = k
    · rw [if_pos hp]; exact ih
    · rw [if_neg hp]
      simp only [lookupEntry, if_neg hp]
      exact ih

theorem lookupEntry_removeKey_ne {α : Type} (l : List (String × CacheEntry α))
    {k k' : String} (h : k ≠ k') : lookupEntry (removeKey l k') k = lookupEntry l k := by
  induction l with
  | nil => rfl
  | cons p tl ih =>
    simp only [removeKey, lookupEntry]
    by_cases hp : p.1 = k'
    · have hpk : ¬ p.1 = k := by rw [hp]; exact fun hh => h hh.symm
      rw [if_pos hp, if_neg hpk]
      exact ih
    · rw [if_neg hp]
      simp only [lookupEntry]
      by_cases hpk : p.1 = k
      · rw [if_pos hpk, if_pos hpk]
      · rw [if_neg hpk, if_neg hpk]
        exact ih

theorem removeKey_length_le {α : Type} (l : List (String × CacheEntry α)) (k : String) :
    (removeKey l k).length ≤ l.length := by
  induction l with
  | nil => exact Nat.le_refl 0
  | cons p tl ih =>
    simp only [removeKey, List.length_cons]
    by_cases hp : p.1 = k
    · rw [if_pos hp]
      exact Nat.le_succ_of_le ih
    · rw [if_neg hp]
      simp only [List.length_cons]
      exact Nat.succ_le_succ ih

theorem removeKey_length_lt {α : Type} {l : List (String × CacheEntry α)} {k : String}
    {e : CacheEntry α} (h : lookupEntry l k = some e) :
    (removeKey l k).length < l.length := by
  induction l with
  | nil => cases h
  | cons p tl ih =>
    simp only [lookupEntry] at h
    simp only [removeKey, List.length_cons]
    by_cases hp : p.1 = k
    · rw [if_pos hp]
      exact Nat.lt_succ_of_le (removeKey_length_le tl k)
    · rw [if_neg hp] at h
      rw [if_neg hp]
      simp only [List.length_cons]
      exact Nat.succ_lt_succ (ih h)

theorem removeKey_eq_self {α : Type} {l : List (String × CacheEntry α)} {k : String}
    (h : lookupEntry l k = none) : removeKey l k = l := by
  induction l with
  | nil => rfl
  | cons p tl ih =>
    simp only [lookupEntry] at h
    by_cases hp : p.1 = k
    · rw [if_pos hp] at h; cases h
    · rw [if_neg hp] at h
      simp only [removeKey, if_neg hp]
      rw [ih h]

theorem lookupEntry_eq_none_of_not_mem {α : Type} {l : List (String × CacheEntry α)}
    {k : String} (h : k ∉ keysOf l) : lookupEntry l k = none := by
  induction l with
  | nil => rfl
  | cons p tl ih =>
    rw [show keysOf (p :: tl) = p.1 :: keysOf tl from rfl, List.mem_cons, not_or] at h
    obtain ⟨h1, h2⟩ := h
    simp only [lookupEntry, if_neg (fun hp : p.1 = k => h1 hp.symm)]
    exact ih h2

theorem mem_keysOf_of_lookupEntry {α : Type} {l : List (String × CacheEntry α)}
    {k : String} {e : CacheEntry α} (h : lookupEntry l k = some e) : k ∈ keysOf l := by
  induction l with
  | nil => cases h
  | cons p tl ih =>
    simp only [lookupEntry] at h
    simp only [keysOf, List.map_cons, List.mem_cons]
    by_cases hp : p.1 = k
    · exact Or.inl hp.symm
    · rw [if_neg hp] at h
      exact Or.inr (ih h)

theorem removeKey_sublist {α : Type} (l : List (String × CacheEntry α)) (k : String) :
    List.Sublist (removeKey l k) l := by
  induction l with
  | nil => exact List.Sublist.refl []
  | cons p tl ih =>
    simp only [removeKey]
    by_cases hp : p.1 = k
    · rw [if_pos hp]
      exact List.Sublist.cons p ih
    · rw [if_neg hp]
      exact List.Sublist.cons₂ p ih

theorem not_mem_keysOf_removeKey {α : Type} (l : List (String × CacheEntry α))
    (k : String) : k ∉ keysOf (removeKey l k) := by
  induction l with
  | nil => simp [removeKey, keysOf]
  | cons p tl ih =>
    simp only [removeKey]
    by_cases hp : p.1 = k
    · rw [if_pos hp]; exact ih
    · rw [if_neg hp]
      simp only [keysOf, List.map_cons, List.mem_cons, not_or]
      exact ⟨fun hh => hp hh.symm, ih⟩

theorem removeKey_length_nodup {α : Type} {l : List (String × CacheEntry α)} {k : String}
    {e : CacheEntry α} (hnd : (keysOf l).Nodup) (h : lookupEntry l k = some e) :
    (removeKey l k).length + 1 = l.length := by
  induction l with
  | nil => cases h
  | cons p tl ih =>
    simp only [keysOf, List.map_cons, List.nodup_cons] at hnd
    simp only [lookupEntry] at h
    simp only [removeKey]
    by_cases hp : p.1 = k
    · rw [if_pos hp]
      have : lookupEntry tl k = none := by
        apply lookupEntry_eq_none_of_not_mem
        rw [← hp]
        exact hnd.1
      rw [removeKey_eq_self this]
      rfl
    · rw [if_neg hp] at h
      rw [if_neg hp]
      simp only [List.length_cons]
      rw [ih hnd.2 h]

/-- The configuration fields never change. -/
theorem applyOp_config {α : Type} (c : InMemoryCache α) (op : CacheOp α) :
    (applyOp c op).max_entries = c.max_entries ∧
      (applyOp c op).default_ttl = c.default_ttl := by
  cases op with
  | get k now =>
    simp only [applyOp, InMemoryCache.get]
    cases hl : lookupEntry c.entries k with
    | none => exact ⟨rfl, rfl⟩
    | some e =>
      dsimp only
      by_cases he : e.expires_at ≤ now
      · rw [if_pos he]; exact ⟨rfl, rfl⟩
      · rw [if_neg he]; exact ⟨rfl, rfl⟩
  | set k v t now =>
    simp only [applyOp, InMemoryCache.set]
    by_cases hc : c.max_entries ≤ c.entries.length ∧ (lookupEntry c.entries k).isNone = true
    · rw [if_pos hc]
      cases c.entries with
      | nil => exact ⟨rfl, rfl⟩
      | cons p tl => exact ⟨rfl, rfl⟩
    · rw [if_neg hc]; exact ⟨rfl, rfl⟩
  | invalidate k => exact ⟨rfl, rfl⟩
  | invalidatePattern p =>
    simp only [applyOp, InMemoryCache.invalidatePattern]
    cases Regex.compile p with
    | none => exact ⟨rfl, rfl⟩
    | some r => exact ⟨rfl, rfl⟩
  | clear => exact ⟨rfl, rfl⟩

theorem keysOf_append {α : Type} (l₁ l₂ : List (String × CacheEntry α)) :
    keysOf (l₁ ++ l₂) = keysOf l₁ ++ keysOf l₂ := by
  simp [keysOf]

theorem nodup_keysOf_append_single {α : Type} {l : List (String × CacheEntry α)}
    {k : String} (e : CacheEntry α) (hnd : (keysOf l).Nodup) (hk : k ∉ keysOf l) :
    (keysOf (l ++ [(k, e)])).Nodup := by
  rw [keysOf_append]
  simp only [keysOf, List.map_cons, List.map_nil]
  rw [List.nodup_append]
  refine ⟨hnd, List.nodup_singleton k, ?_⟩
  intro a ha hb
  rw [List.mem_singleton] at hb
  subst hb
  exact hk ha

theorem nodup_keysOf_sublist {α : Type} {l₁ l₂ : List (String × CacheEntry α)}
    (hs : List.Sublist l₁ l₂) (hnd : (keysOf l₂).Nodup) : (keysOf l₁).Nodup :=
  ((hs.map Prod.fst).nodup hnd)

theorem lookupEntry_isSome_of_mem {α : Type} {l : List (String × CacheEntry α)}
    {k : String} (h : k ∈ keysOf l) : ∃ e, lookupEntry l k = some e := by
  induction l with
  | nil => cases h
  | cons p tl ih =>
    rw [show keysOf (p :: tl) = p.1 :: keysOf tl from rfl, List.mem_cons] at h
    by_cases hp : p.1 = k
    · exact ⟨p.2, by simp [lookupEntry, if_pos hp]⟩
    · have h2 : k ∈ keysOf tl := by
        rcases h with h | h
        · exact absurd h.symm hp
        · exact h
      obtain ⟨e, he⟩ := ih h2
      exact ⟨e, by simp [lookupEntry, if_neg hp, he]⟩

/-- Nodup keys and the capacity bound are preserved by every operation. -/
theorem applyOp_invariant {α : Type} (c : InMemoryCache α) (op : CacheOp α)
    (hnd : (keysOf c.entries).Nodup) (hlen : c.entries.length ≤ c.max_entries) :
    (keysOf (applyOp c op).entries).Nodup ∧
      (applyOp c op).entries.length ≤ (applyOp c op).max_entries := by
  obtain ⟨hmax, -⟩ := applyOp_config c op
  rw [hmax]
  cases op with
  | get k now =>
    simp only [applyOp, InMemoryCache.get]
    cases hl : lookupEntry c.entries k with
    | none => exact ⟨hnd, hlen⟩
    | some e =>
      dsimp only
      by_cases he : e.expires_at ≤ now
      · rw [if_pos he]
        refine ⟨nodup_keysOf_sublist (removeKey_sublist _ _) hnd, ?_⟩
        exact Nat.le_trans (removeKey_length_le _ _) hlen
      · rw [if_neg he]
        constructor
        · exact nodup_keysOf_append_single e
            (nodup_keysOf_sublist (removeKey_sublist _ _) hnd)
            (not_mem_keysOf_removeKey _ _)
        · simp only [List.length_append, List.length_cons, List.length_nil]
          have := removeKey_length_lt hl
          omega
  | set k v t now =>
    simp only [applyOp, InMemoryCache.set]
    by_cases hc : c.max_entries ≤ c.entries.length ∧ (lookupEntry c.entries k).isNone = true
    · rw [if_pos hc]
      have hnone : lookupEntry c.entries k = none := Option.isNone_iff_eq_none.mp hc.2
      have hnotin : k ∉ keysOf c.entries := fun hmem => by
        obtain ⟨e, he⟩ := lookupEntry_isSome_of_mem hmem
        rw [hnone] at he
        cases he
      cases hent : c.entries with
      | nil => exact ⟨hnd, hlen⟩
      | cons p tl =>
        dsimp only [Option.getD_some]
        rw [hent] at hnd hnotin
        have hndtl : (keysOf tl).Nodup :=
          nodup_keysOf_sublist (List.sublist_cons_self p tl) hnd
        have hknotl : k ∉ keysOf tl := fun hin => hnotin (by
          rw [show keysOf (p :: tl) = p.1 :: keysOf tl from rfl]
          exact List.mem_cons_of_mem p.1 hin)
        refine ⟨nodup_keysOf_append_single _ hndtl hknotl, ?_⟩
        simp only [List.length_append, List.length_cons, List.length_nil]
        have hlen' : c.entries.length = c.max_entries := Nat.le_antisymm hlen hc.1
        rw [hent] at hlen'
        simp only [List.length_cons] at hlen'
        omega
    · rw [if_neg hc]
      simp only [Option.getD_some]
      refine ⟨nodup_keysOf_append_single _
        (nodup_keysOf_sublist (removeKey_sublist _ _) hnd)
        (not_mem_keysOf_removeKey _ _), ?_⟩
      simp only [List.length_append, List.length_cons, List.length_nil]
      rcases Decidable.not_and_iff_or_not.mp hc with hlt | hsome
      · have h1 : c.entries.length < c.max_entries := Nat.lt_of_not_le hlt
        have h2 := removeKey_length_le c.entries k
        omega
      · have h1 : ∃ e, lookupEntry c.entries k = some e := by
          cases hl : lookupEntry c.entries k with
          | none => rw [hl] at hsome; simp at hsome
          | some e => exact ⟨e, rfl⟩
        obtain ⟨e, he⟩ := h1
        have h2 := removeKey_length_lt he
        omega
  | invalidate k =>
    refine ⟨nodup_keysOf_sublist (removeKey_sublist _ _) hnd, ?_⟩
    exact Nat.le_trans (removeKey_length_le _ _) hlen
  | invalidatePattern p =>
    simp only [applyOp, InMemoryCache.invalidatePattern]
    cases Regex.compile p with
    | none => exact ⟨hnd, hlen⟩
    | some r =>
      refine ⟨nodup_keysOf_sublist (List.filter_sublist _) hnd, ?_⟩
      exact Nat.le_trans (List.length_filter_le _ _) hlen
  | clear => exact ⟨List.nodup_nil, Nat.zero_le _⟩

theorem applyOps_invariant {α : Type} (ops : List (CacheOp α)) :
    ∀ c : InMemoryCache α, (keysOf c.entries).Nodup → c.entries.length ≤ c.max_entries →
      (keysOf (applyOps c ops).entries).Nodup ∧
        (applyOps c ops).entries.length ≤ (applyOps c ops).max_entries ∧
        (applyOps c ops).max_entries = c.max_entries := by
  induction ops with
  | nil => exact fun c hnd hlen => ⟨hnd, hlen, rfl⟩
  | cons op rest ih =>
    intro c hnd hlen
    simp only [applyOps, List.foldl_cons]
    obtain ⟨h1, h2⟩ := applyOp_invariant c op hnd hlen
    obtain ⟨h3, h4, h5⟩ := ih (applyOp c op) h1 h2
    refine ⟨h3, h4, ?_⟩
    have h6 := (applyOp_config c op).1
    simp only [applyOps] at h5
    rw [h5, h6]

theorem lookupEntry_tail_none {α : Type} {p : String × CacheEntry α}
    {tl : List (String × CacheEntry α)} {k : String}
    (h : lookupEntry (p :: tl) k = none) : lookupEntry tl k = none := by
  simp only [lookupEntry] at h
  by_cases hp : p.1 = k
  · rw [if_pos hp] at h; cases h
  · rwa [if_neg hp] at h

/-- Shape of the store after a completed `set`: the fresh entry sits at
the most-recently-used position with `expires_at = now + effective_ttl`,
after a store segment that does not mention the key. -/
theorem InMemoryCache.set_shape {α : Type} {c c' : InMemoryCache α} {k : String}
    {v : PyVal α} {ttl : Option Int} {now : Int}
    (h : c.set k v ttl now = some c') :
    ∃ X, c'.entries = X ++ [(k, ⟨v, now + ttl.getD c.default_ttl⟩)] ∧
      lookupEntry X k = none ∧
      c'.default_ttl = c.default_ttl ∧ c'.max_entries = c.max_entries := by
  unfold InMemoryCache.set at h
  by_cases hc : c.max_entries ≤ c.entries.length ∧ (lookupEntry c.entries k).isNone = true
  · rw [if_pos hc] at h
    cases hent : c.entries with
    | nil => rw [hent] at h; cases h
    | cons p tl =>
      rw [hent] at h
      dsimp only at h
      have hc' := Option.some.inj h
      have hnone : lookupEntry c.entries k = none := Option.isNone_iff_eq_none.mp hc.2
      rw [hent] at hnone
      refine ⟨tl, ?_, lookupEntry_tail_none hnone, ?_, ?_⟩ <;> rw [← hc']
  · rw [if_neg hc] at h
    have hc' := Option.some.inj h
    refine ⟨removeKey c.entries k, ?_, lookupEntry_removeKey_self c.entries k, ?_, ?_⟩ <;>
      rw [← hc']

theorem lookupEntry_of_set {α : Type} {c c' : InMemoryCache α} {k : String}
    {v : PyVal α} {ttl : Option Int} {now : Int}
    (h : c.set k v ttl now = some c') :
    lookupEntry c'.entries k = some ⟨v, now + ttl.getD c.default_ttl⟩ := by
  obtain ⟨X, hent, hX, -, -⟩ := InMemoryCache.set_shape h
  rw [hent, lookupEntry_append_left_none hX]
  simp [lookupEntry]

/-- C1: after `set(k, v, t)` with `t ≥ 0`, which records
`expires_at = now + t`, a `get(k)` strictly before `expires_at` returns
`v` (and refreshes the entry's recency), a `get(k)` at or after
`expires_at` reports a miss and removes the entry from storage as a side
effect of that very `get`, and a `get` of any other key never removes
`k`'s entry (lazy cleanup only). -/
theorem ttl_correctness {α : Type} (c c' : InMemoryCache α) (k : String) (v : PyVal α)
    (t now : Int) (_ht : 0 ≤ t) (hset : c.set k v (some t) now = some c') :
    (∀ now', now' < now + t →
      (c'.get k now').1 = v ∧
        (c'.get k now').2.entries = removeKey c'.entries k ++ [(k, ⟨v, now + t⟩)]) ∧
    (∀ now', now + t ≤ now' →
      (c'.get k now').1 = .pynone ∧
        lookupEntry ((c'.get k now').2).entries k = none) ∧
    (∀ k' now', k' ≠ k →
      lookupEntry ((c'.get k' now').2).entries k = lookupEntry c'.entries k) := by
  have hlook : lookupEntry c'.entries k = some ⟨v, now + t⟩ := lookupEntry_of_set hset
  refine ⟨?_, ?_, ?_⟩
  · intro now' hlt
    unfold InMemoryCache.get
    rw [hlook]
    dsimp only
    rw [if_neg (by omega : ¬ (now + t ≤ now'))]
    exact ⟨rfl, rfl⟩
  · intro now' hle
    unfold InMemoryCache.get
    rw [hlook]
    dsimp only
    rw [if_pos hle]
    exact ⟨rfl, lookupEntry_removeKey_self c'.entries k⟩
  · intro k' now' hne
    unfold InMemoryCache.get
    cases hl : lookupEntry c'.entries k' with
    | none => rfl
    | some e =>
      dsimp only
      by_cases he : e.expires_at ≤ now'
      · rw [if_pos he]
        exact lookupEntry_removeKey_ne c'.entries (fun hh => hne hh.symm)
      · rw [if_neg he]
        dsimp only
        rw [lookupEntry_append_single_ne _ e hne,
          lookupEntry_removeKey_ne c'.entries (fun hh => hne hh.symm)]

/-- C1 witness at a concrete instance. -/
theorem ttl_correctness_witness :
    ((emptyCache Nat 300 10).set ("k") (.other 5) (some 7) 0 =
        some ⟨300, 10, [(("k"), ⟨.other 5, 7⟩)]⟩) ∧
    (((⟨300, 10, [(("k"), ⟨.other 5, 7⟩)]⟩ : InMemoryCache Nat).get ("k") 3).1 = .other 5) ∧
    (((⟨300, 10, [(("k"), ⟨.other 5, 7⟩)]⟩ : InMemoryCache Nat).get ("k") 7).1 = .pynone) ∧
    lookupEntry ((((⟨300, 10, [(("k"), ⟨.other 5, 7⟩)]⟩ : InMemoryCache Nat).get ("k") 7).2).entries)
      ("k") = none := by
  have hset : (emptyCache Nat 300 10).set ("k") (.other 5) (some 7) 0 =
      some ⟨300, 10, [(("k"), ⟨.other 5, 7⟩)]⟩ := by decide
  obtain ⟨h1, h2, h3⟩ := ttl_correctness (emptyCache Nat 300 10)
    ⟨300, 10, [(("k"), ⟨.other 5, 7⟩)]⟩ ("k") (.other 5) 7 0 (by decide) hset
  exact ⟨hset, (h1 3 (by decide)).1, (h2 7 (by decide)).1, (h2 7 (by decide)).2⟩

/-- C3: inserting a genuinely new key at or above capacity evicts exactly
the head of the recency list (the least-recently-touched entry) and
leaves all others in order; a `get`-hit moves its key to the
most-recently-used position (protecting it from the next eviction); and
the concrete capacity-2 scenario `set(a,1); set(b,2); get(a); set(c,3)`
yields `get(b)` miss, `get(a) = 1`, `get(c) = 3`. -/
theorem lru_order :
    (∀ (α : Type) (c c' : InMemoryCache α) (k0 : String) (e0 : CacheEntry α)
        (rest : List (String × CacheEntry α)) (key : String) (v : PyVal α)
        (ttl : Option Int) (now : Int),
      c.entries = (k0, e0) :: rest →
      c.max_entries ≤ c.entries.length →
      lookupEntry c.entries key = none →
      c.set key v ttl now = some c' →
      c'.entries = rest ++ [(key, ⟨v, now + ttl.getD c.default_ttl⟩)]) ∧
    (∀ (α : Type) (c : InMemoryCache α) (k : String) (e : CacheEntry α) (now : Int),
      lookupEntry c.entries k = some e →
      ¬ e.expires_at ≤ now →
      (c.get k now).2.entries = removeKey c.entries k ++ [(k, e)]) ∧
    lruScenario.map (fun cf =>
      ((cf.get ("b") 0).1,
        ((cf.get ("b") 0).2.get ("a") 0).1,
        (((cf.get ("b") 0).2.get ("a") 0).2.get ("c") 0).1)) =
      some (.pynone, .other 1, .other 3) := by
  refine ⟨?_, ?_, by decide⟩
  · intro α c c' k0 e0 rest key v ttl now hent hcap hnone hset
    unfold InMemoryCache.set at hset
    rw [if_pos ⟨hcap, Option.isNone_iff_eq_none.mpr hnone⟩, hent] at hset
    dsimp only at hset
    have hc' := Option.some.inj hset
    rw [← hc']
  · intro α c k e now hl he
    unfold InMemoryCache.get
    rw [hl]
    dsimp only
    rw [if_neg he]

/-- C3 witness at a concrete instance. -/
theorem lru_order_witness :
    ((⟨300, 2, [(("b"), ⟨.other 2, 300⟩), (("a"), ⟨.other 1, 300⟩)]⟩ : InMemoryCache Nat).entries =
        (("b"), ⟨.other 2, 300⟩) :: [(("a"), ⟨.other 1, 300⟩)]) ∧
    ((⟨300, 2, [(("b"), ⟨.other 2, 300⟩), (("a"), ⟨.other 1, 300⟩)]⟩ : InMemoryCache Nat).set
        ("c") (.other 3) none 0 =
      some ⟨300, 2, [(("a"), ⟨.other 1, 300⟩), (("c"), ⟨.other 3, 300⟩)]⟩) ∧
    (⟨300, 2, [(("a"), ⟨.other 1, 300⟩), (("c"), ⟨.other 3, 300⟩)]⟩ : InMemoryCache Nat).entries =
      [(("a"), ⟨.other 1, 300⟩)] ++ [(("c"), ⟨.other 3, 0 + (none : Option Int).getD 300⟩)] := by
  refine ⟨by decide, by decide, ?_⟩
  exact lru_order.1 Nat
    ⟨300, 2, [(("b"), ⟨.other 2, 300⟩), (("a"), ⟨.other 1, 300⟩)]⟩
    ⟨300, 2, [(("a"), ⟨.other 1, 300⟩), (("c"), ⟨.other 3, 300⟩)]⟩
    ("b") ⟨.other 2, 300⟩ [(("a"), ⟨.other 1, 300⟩)] ("c") (.other 3) none 0
    (by decide) (by decide) (by decide) (by decide)

/-- C6: on every state reachable by a sequence of cache operations from a
fresh cache, the entry count stays within capacity; a `set` of a new key
at or above capacity evicts exactly one entry (count unchanged); a `set`
overwriting an existing key completes, keeps the entry count, and evicts
no other key; and concretely, capacity 2 with `set(a,1); set(b,2);
set(a,1)` leaves `stats().current == 2`. -/
theorem capacity_invariant :
    (∀ (α : Type) (d : Int) (C : Nat) (ops : List (CacheOp α)),
      (applyOps (emptyCache α d C) ops).entries.length ≤ C) ∧
    (∀ (α : Type) (c c' : InMemoryCache α) (k : String) (v : PyVal α)
        (ttl : Option Int) (now : Int),
      c.max_entries ≤ c.entries.length →
      lookupEntry c.entries k = none →
      c.set k v ttl now = some c' →
      c'.entries.length = c.entries.length) ∧
    (∀ (α : Type) (d : Int) (C : Nat) (ops : List (CacheOp α))
        (k : String) (e : CacheEntry α) (v : PyVal α) (ttl : Option Int) (now : Int),
      lookupEntry (applyOps (emptyCache α d C) ops).entries k = some e →
      ∃ c', (applyOps (emptyCache α d C) ops).set k v ttl now = some c' ∧
        c'.entries.length = (applyOps (emptyCache α d C) ops).entries.length ∧
        ∀ k', k' ≠ k → lookupEntry c'.entries k' =
          lookupEntry (applyOps (emptyCache α d C) ops).entries k') ∧
    updScenario.map (fun cf => (cf.stats 0).current) = some 2 := by
  refine ⟨?_, ?_, ?_, by decide⟩
  · intro α d C ops
    obtain ⟨-, h2, h3⟩ := applyOps_invariant ops (emptyCache α d C)
      List.nodup_nil (Nat.zero_le C)
    rw [h3] at h2
    exact h2
  · intro α c c' k v ttl now hcap hnone hset
    unfold InMemoryCache.set at hset
    rw [if_pos ⟨hcap, Option.isNone_iff_eq_none.mpr hnone⟩] at hset
    cases hent : c.entries with
    | nil =>
      rw [hent] at hset
      cases hset
    | cons p tl =>
      rw [hent] at hset
      dsimp only at hset
      have hc' := Option.some.inj hset
      have he2 : c'.entries = tl ++ [(k, ⟨v, now + ttl.getD c.default_ttl⟩)] := by
        rw [← hc']
      rw [he2]
      simp
  · intro α d C ops k e v ttl now hlook
    set c := applyOps (emptyCache α d C) ops with hc
    obtain ⟨hnd, -, -⟩ := applyOps_invariant ops (emptyCache α d C)
      List.nodup_nil (Nat.zero_le C)
    rw [← hc] at hnd
    have hcond : ¬ (c.max_entries ≤ c.entries.length ∧
        (lookupEntry c.entries k).isNone = true) := by
      intro hcc
      rw [hlook] at hcc
      cases hcc.2
    refine ⟨{ c with entries := removeKey c.entries k ++
        [(k, ⟨v, now + ttl.getD c.default_ttl⟩)] }, ?_, ?_, ?_⟩
    · unfold InMemoryCache.set
      rw [if_neg hcond]
    · simp only [List.length_append, List.length_cons, List.length_nil]
      have := removeKey_length_nodup hnd hlook
      omega
    · intro k' hne
      rw [lookupEntry_append_single_ne _ _ (fun hh => hne hh.symm),
        lookupEntry_removeKey_ne _ hne]

/-- C6 witness at a concrete instance. -/
theorem capacity_invariant_witness :
    (applyOps (emptyCache Nat 300 2)
        [.set ("a") (.other 1) none 0, .set ("b") (.other 2) none 0]).entries.length ≤ 2 ∧
    ∃ c', (applyOps (emptyCache Nat 300 2)
        [.set ("a") (.other 1) none 0, .set ("b") (.other 2) none 0]).set
          ("a") (.other 1) none 0 = some c' ∧
      c'.entries.length = 2 := by
  have h1 := capacity_invariant.1 Nat 300 2
    [.set ("a") (.other 1) none 0, .set ("b") (.other 2) none 0]
  have h3 := capacity_invariant.2.2.1 Nat 300 2
    [.set ("a") (.other 1) none 0, .set ("b") (.other 2) none 0]
    ("a") ⟨.other 1, 300⟩ (.other 1) none 0 (by decide)
  obtain ⟨c', hset, hlen, -⟩ := h3
  refine ⟨h1, c', hset, ?_⟩
  rw [hlen]
  decide

theorem set_isSome_of_pos {α : Type} (c : InMemoryCache α) (k : String) (v : PyVal α)
    (ttl : Option Int) (now : Int) (hpos : 0 < c.max_entries) :
    ∃ c', c.set k v ttl now = some c' := by
  unfold InMemoryCache.set
  by_cases hc : c.max_entries ≤ c.entries.length ∧ (lookupEntry c.entries k).isNone = true
  · rw [if_pos hc]
    cases hent : c.entries with
    | nil =>
      rw [hent] at hc
      simp only [List.length_nil] at hc
      omega
    | cons p tl => exact ⟨_, rfl⟩
  · rw [if_neg hc]
    exact ⟨_, rfl⟩

/-- C10: a stored `None` is indistinguishable from a miss at the public
interface: after `set(k, None, t)`, a `get(k)` while the entry is live
returns the same miss sentinel (`None`) as an absent key yet still
refreshes the entry's recency; and the request pipeline treats such a
cached `None` as a miss, issuing the network call. -/
theorem cached_none_is_miss :
    (∀ (α : Type) (c c' : InMemoryCache α) (k : String) (t now now' : Int),
      c.set k .pynone (some t) now = some c' →
      now' < now + t →
      (c'.get k now').1 = PyVal.pynone ∧
        ((emptyCache α c'.default_ttl c'.max_entries).get k now').1 = PyVal.pynone ∧
        (c'.get k now').2.entries = removeKey c'.entries k ++ [(k, ⟨.pynone, now + t⟩)]) ∧
    (∀ (α : Type) (c : InMemoryCache α) (k path : String) (cacheTtl : Option Int)
        (n : Nat) (d : Int) (net : Nat → NetResult α) (jitter : Nat → ℚ) (now : Int)
        (status : Nat) (ra : Option Int) (body : PyVal α),
      k ≠ "" →
      (c.get k now).1 = PyVal.pynone →
      0 < c.max_entries →
      net 0 = .response status ra body →
      classifyStatus status ra = none →
      successFlagFails body = false →
      (request c true ("GET") path (some k) cacheTtl (n + 1) d net jitter now).result =
          .ok body ∧
        (request c true ("GET") path (some k) cacheTtl (n + 1) d net jitter now).networkCalls
          = 1) := by
  constructor
  · intro α c c' k t now now' hset hlive
    have hlook : lookupEntry c'.entries k = some ⟨.pynone, now + t⟩ := lookupEntry_of_set hset
    refine ⟨?_, rfl, ?_⟩
    · unfold InMemoryCache.get
      rw [hlook]
      dsimp only
      rw [if_neg (by omega : ¬ (now + t ≤ now'))]
    · unfold InMemoryCache.get
      rw [hlook]
      dsimp only
      rw [if_neg (by omega : ¬ (now + t ≤ now'))]
  · intro α c k path cacheTtl n d net jitter now status ra body
      hk hget hpos hnet hclass hflag
    have hkey : (("GET") = "GET" ∧ k ≠ "") := ⟨rfl, hk⟩
    simp only [request]
    rw [if_pos (show True ∧ k ≠ "" from ⟨trivial, hk⟩), hget]
    simp only [PyVal.isNone, if_true]
    have hmax : 0 < ((c.get k now).2).max_entries := by
      have := (applyOp_config c (.get k now)).1
      simp only [applyOp] at this
      rw [this]
      exact hpos
    obtain ⟨c2, hc2⟩ := set_isSome_of_pos ((c.get k now).2) k body
      (some (cacheTtl.getD d)) now hmax
    unfold requestLoop
    rw [hnet]
    dsimp only
    rw [hclass]
    dsimp only
    rw [hflag]
    simp only [Bool.false_eq_true, if_false]
    rw [if_pos (show True ∧ k ≠ "" from ⟨trivial, hk⟩), hc2]
    dsimp only
    rw [if_neg (by decide : ¬ isWriteMethod ("GET") = true)]
    exact ⟨rfl, rfl⟩

/-- C10 witness at a concrete instance. -/
theorem cached_none_is_miss_witness :
    (((⟨300, 10, [(("k"), ⟨.pynone, 7⟩)]⟩ : InMemoryCache Nat).get ("k") 3).1 =
        PyVal.pynone) ∧
    ((request (⟨300, 1000, [(("k"), ⟨.pynone, 50⟩)]⟩ : InMemoryCache Nat) true ("GET")
        ("/x") (some ("k")) none 3 300 (fun _ => .response 200 none (.other 7))
        (fun _ => 0) 0).result = .ok (.other 7)) ∧
    ((request (⟨300, 1000, [(("k"), ⟨.pynone, 50⟩)]⟩ : InMemoryCache Nat) true ("GET")
        ("/x") (some ("k")) none 3 300 (fun _ => .response 200 none (.other 7))
        (fun _ => 0) 0).networkCalls = 1) := by
  have h1 := (cached_none_is_miss.1 Nat (emptyCache Nat 300 10)
    ⟨300, 10, [(("k"), ⟨.pynone, 7⟩)]⟩ ("k") 7 0 3 (by decide) (by decide)).1
  have h2 := cached_none_is_miss.2 Nat (⟨300, 1000, [(("k"), ⟨.pynone, 50⟩)]⟩ : InMemoryCache Nat)
    ("k") ("/x") none 2 300 (fun _ => .response 200 none (.other 7)) (fun _ => 0) 0
    200 none (.other 7) (by decide) (by decide) (by decide) rfl (by decide) (by decide)
  exact ⟨h1, h2.1, h2.2⟩

/-- C9: the cache consultation precedes the client-initialization check:
a GET with a truthy cache key whose entry is live (and holds a non-`None`
value) returns the cached value with zero network activity even when the
client was never initialized; the "Client not initialized" failure is
raised only past the cache path — after a miss, or for keyless / non-GET
requests. -/
theorem cache_before_init :
    (∀ (α : Type) (c : InMemoryCache α) (k path : String) (cacheTtl : Option Int)
        (maxR : Nat) (d : Int) (net : Nat → NetResult α) (jitter : Nat → ℚ)
        (now : Int) (v : PyVal α),
      k ≠ "" → (c.get k now).1 = v → v.isNone = false →
      request c false ("GET") path (some k) cacheTtl maxR d net jitter now =
        ⟨.ok v, (c.get k now).2, 0, []⟩) ∧
    (∀ (α : Type) (c : InMemoryCache α) (k path : String) (cacheTtl : Option Int)
        (maxR : Nat) (d : Int) (net : Nat → NetResult α) (jitter : Nat → ℚ)
        (now : Int),
      k ≠ "" → (c.get k now).1 = PyVal.pynone →
      request c false ("GET") path (some k) cacheTtl maxR d net jitter now =
        ⟨.error .notInitialized, (c.get k now).2, 0, []⟩) ∧
    (∀ (α : Type) (c : InMemoryCache α) (method path : String) (cacheTtl : Option Int)
        (maxR : Nat) (d : Int) (net : Nat → NetResult α) (jitter : Nat → ℚ)
        (now : Int),
      request c false method path none cacheTtl maxR d net jitter now =
        ⟨.error .notInitialized, c, 0, []⟩) ∧
    (∀ (α : Type) (c : InMemoryCache α) (method k path : String) (cacheTtl : Option Int)
        (maxR : Nat) (d : Int) (net : Nat → NetResult α) (jitter : Nat → ℚ)
        (now : Int),
      ¬ (method = "GET" ∧ k ≠ "") →
      request c false method path (some k) cacheTtl maxR d net jitter now =
        ⟨.error .notInitialized, c, 0, []⟩) := by
  refine ⟨?_, ?_, ?_, ?_⟩
  · intro α c k path cacheTtl maxR d net jitter now v hk hv hvn
    simp only [request]
    rw [if_pos (show True ∧ k ≠ "" from ⟨trivial, hk⟩), hv, hvn]
    simp only [Bool.false_eq_true, if_false]
  · intro α c k path cacheTtl maxR d net jitter now hk hv
    simp only [request]
    rw [if_pos (show True ∧ k ≠ "" from ⟨trivial, hk⟩), hv]
    simp only [PyVal.isNone, if_true, Bool.false_eq_true, if_false]
  · intro α c method path cacheTtl maxR d net jitter now
    simp only [request, Bool.false_eq_true, if_false]
  · intro α c method k path cacheTtl maxR d net jitter now hcond
    simp only [request]
    rw [if_neg hcond]
    simp only [Bool.false_eq_true, if_false]

/-- C9 witness at a concrete instance. -/
theorem cache_before_init_witness :
    (request (⟨300, 1000, [(("k"), ⟨.other 9, 50⟩)]⟩ : InMemoryCache Nat) false ("GET")
        ("/x") (some ("k")) none 3 300 (fun _ => .transport .timeout) (fun _ => 0) 0 =
      ⟨.ok (.other 9),
        ((⟨300, 1000, [(("k"), ⟨.other 9, 50⟩)]⟩ : InMemoryCache Nat).get ("k") 0).2,
        0, []⟩) ∧
    (request (⟨300, 1000, [(("k"), ⟨.other 9, 50⟩)]⟩ : InMemoryCache Nat) false ("POST")
        ("/x") (some ("k")) none 3 300 (fun _ => .transport .timeout) (fun _ => 0) 0 =
      ⟨.error .notInitialized, ⟨300, 1000, [(("k"), ⟨.other 9, 50⟩)]⟩, 0, []⟩) := by
  constructor
  · exact cache_before_init.1 Nat (⟨300, 1000, [(("k"), ⟨.other 9, 50⟩)]⟩ : InMemoryCache Nat)
      ("k") ("/x") none 3 300 (fun _ => .transport .timeout) (fun _ => 0) 0
      (.other 9) (by decide) (by decide) (by decide)
  · exact cache_before_init.2.2.2 Nat
      (⟨300, 1000, [(("k"), ⟨.other 9, 50⟩)]⟩ : InMemoryCache Nat)
      ("POST") ("k") ("/x") none 3 300 (fun _ => .transport .timeout) (fun _ => 0) 0
      (by decide)

/-- The retry loop under an all-transport-failure network script: it
makes one network call per remaining iteration, sleeps
`2^attempt + jitter*0.1` before every retry except after the final
attempt, and ends with the terminal failure wrapping the last transport
error. -/
theorem requestLoop_allTransport {α : Type} (method path : String)
    (cacheKeyOpt : Option String) (cacheTtl : Option Int) (maxR : Nat) (d : Int)
    (net : Nat → NetResult α) (jitter : Nat → ℚ) (now : Int)
    (errF : Nat → TransportErr) (hnet : ∀ i, net i = .transport (errF i)) :
    ∀ (remaining attempt calls : Nat) (sleeps : List ℚ)
      (lastErr : Option TransportErr) (cache : InMemoryCache α),
      attempt + remaining = maxR →
      requestLoop method path cacheKeyOpt cacheTtl maxR d net jitter now cache
          remaining attempt calls sleeps lastErr =
        ⟨.error (.exhausted maxR
            (if remaining = 0 then lastErr else some (errF (maxR - 1)))),
          cache, calls + remaining,
          sleeps ++ (List.range' attempt (remaining - 1)).map
            (fun i => (2 : ℚ) ^ i + jitter i * (1 / 10))⟩ := by
  intro remaining
  induction remaining with
  | zero =>
    intro attempt calls sleeps lastErr cache hsum
    simp [requestLoop]
  | succ r ih =>
    intro attempt calls sleeps lastErr cache hsum
    rw [show requestLoop method path cacheKeyOpt cacheTtl maxR d net jitter now cache
        (r + 1) attempt calls sleeps lastErr =
      (match net attempt with
        | .transport e =>
          requestLoop method path cacheKeyOpt cacheTtl maxR d net jitter now cache r
            (attempt + 1) (calls + 1)
            (if attempt < maxR - 1
              then sleeps ++ [(2 : ℚ) ^ attempt + jitter attempt * (1 / 10)]
              else sleeps) (some e)
        | .response status retryAfter body => _) from rfl]
    rw [hnet attempt]
    dsimp only
    rw [ih (attempt + 1) (calls + 1) _ (some (errF attempt)) cache (by omega)]
    cases r with
    | zero =>
      have hatt : attempt = maxR - 1 := by omega
      rw [if_neg (by omega : ¬ attempt < maxR - 1)]
      subst hatt
      simp
    | succ rr =>
      have hlt : attempt < maxR - 1 := by omega
      rw [if_pos hlt]
      have hrange : List.range' attempt (rr + 1 + 1 - 1) =
          attempt :: List.range' (attempt + 1) (rr + 1 - 1) := by
        rw [show rr + 1 + 1 - 1 = (rr + 1 - 1) + 1 from by omega]
        rfl
      rw [hrange]
      simp [Nat.add_assoc, Nat.add_comm 1 rr]
      omega

/-- C4: with `max_retries = N ≥ 1` and every attempt failing at the
transport level, the pipeline raises the terminal "request failed after N
attempts" failure wrapping the last transport error after exactly N
network attempts; the delay slept before retry `i+1` is
`2^i + jitter*0.1`, hence at least `2^i` and below `2^i + 0.1` for jitter
in `[0, 1)`; and no sleep follows the final failed attempt (exactly
`N - 1` sleeps). -/
theorem retry_backoff_termination (α : Type) (c : InMemoryCache α)
    (method path : String) (cacheTtl : Option Int) (N : Nat) (d : Int)
    (net : Nat → NetResult α) (jitter : Nat → ℚ) (now : Int)
    (errF : Nat → TransportErr) (out : ReqOutcome α)
    (hN : 1 ≤ N) (hnet : ∀ i, net i = .transport (errF i))
    (hjit : ∀ i, 0 ≤ jitter i ∧ jitter i < 1)
    (hout : out = request c true method path none cacheTtl N d net jitter now) :
    out.result = .error (.exhausted N (some (errF (N - 1)))) ∧
    out.networkCalls = N ∧
    out.sleeps = (List.range' 0 (N - 1)).map
      (fun i => (2 : ℚ) ^ i + jitter i * (1 / 10)) ∧
    out.sleeps.length = N - 1 ∧
    ∀ i, ∀ hi : i < out.sleeps.length,
      (2 : ℚ) ^ i ≤ out.sleeps.get ⟨i, hi⟩ ∧
        out.sleeps.get ⟨i, hi⟩ < (2 : ℚ) ^ i + 1 / 10 := by
  have hloop := requestLoop_allTransport method path none cacheTtl N d net jitter now
    errF hnet N 0 0 [] none c (by omega)
  have hreq : request c true method path none cacheTtl N d net jitter now =
      ⟨.error (.exhausted N (if N = 0 then none else some (errF (N - 1)))),
        c, 0 + N,
        [] ++ (List.range' 0 (N - 1)).map
          (fun i => (2 : ℚ) ^ i + jitter i * (1 / 10))⟩ := by
    simp only [request]
    exact hloop
  rw [if_neg (by omega : ¬ N = 0)] at hreq
  simp only [Nat.zero_add, List.nil_append] at hreq
  have hres : out.result = .error (.exhausted N (some (errF (N - 1)))) := by
    rw [hout, hreq]
  have hcalls : out.networkCalls = N := by rw [hout, hreq]
  have hsleeps : out.sleeps = (List.range' 0 (N - 1)).map
      (fun j => (2 : ℚ) ^ j + jitter j * (1 / 10)) := by rw [hout, hreq]
  refine ⟨hres, hcalls, hsleeps, ?_, ?_⟩
  · rw [hsleeps]
    simp [List.length_range']
  · intro i hi
    have hval : out.sleeps.get ⟨i, hi⟩ = (2 : ℚ) ^ i + jitter i * (1 / 10) := by
      have hcast := List.get_of_eq hsleeps ⟨i, hi⟩
      rw [hcast, List.get_eq_getElem, List.getElem_map, List.getElem_range'_1]
      simp
    rw [hval]
    obtain ⟨hj0, hj1⟩ := hjit i
    constructor
    · have hge : 0 ≤ jitter i * (1 / 10) := by positivity
      linarith
    · have hlt : jitter i * (1 / 10) < 1 * (1 / 10) := by
        apply mul_lt_mul_of_pos_right hj1
        norm_num
      linarith

/-- C4 witness at a concrete instance (`N = 2`, zero jitter). -/
theorem retry_backoff_termination_witness :
    (request (emptyCache Nat 300 1000) true ("GET") ("/x") none none 2 300
        (fun _ => .transport .timeout) (fun _ => 0) 0).result =
      .error (.exhausted 2 (some .timeout)) ∧
    (request (emptyCache Nat 300 1000) true ("GET") ("/x") none none 2 300
        (fun _ => .transport .timeout) (fun _ => 0) 0).networkCalls = 2 ∧
    (request (emptyCache Nat 300 1000) true ("GET") ("/x") none none 2 300
        (fun _ => .transport .timeout) (fun _ => 0) 0).sleeps = [1] := by
  obtain ⟨h1, h2, h3, -, -⟩ := retry_backoff_termination Nat (emptyCache Nat 300 1000)
    ("GET") ("/x") none 2 300 (fun _ => .transport .timeout) (fun _ => 0) 0
    (fun _ => .timeout) _ (by decide) (fun i => rfl) (fun i => by norm_num) rfl
  refine ⟨h1, h2, ?_⟩
  rw [h3]
  norm_num

theorem request_keyless (α : Type) (c : InMemoryCache α) (method path : String)
    (cacheTtl : Option Int) (maxR : Nat) (d : Int) (net : Nat → NetResult α)
    (jitter : Nat → ℚ) (now : Int) :
    request c true method path none cacheTtl maxR d net jitter now =
      requestLoop method path none cacheTtl maxR d net jitter now c maxR 0 0 [] none := by
  simp [request]

theorem requestLoop_classified {α : Type} {method path : String}
    {cacheKeyOpt : Option String} {cacheTtl : Option Int} {maxR : Nat} {d : Int}
    {net : Nat → NetResult α} {jitter : Nat → ℚ} {now : Int} {cache : InMemoryCache α}
    {r attempt calls : Nat} {sleeps : List ℚ} {lastErr : Option TransportErr}
    {status : Nat} {ra : Option Int} {body : PyVal α} {err : RequestError}
    (hnet : net attempt = .response status ra body)
    (hcls : classifyStatus status ra = some err) :
    requestLoop method path cacheKeyOpt cacheTtl maxR d net jitter now cache
        (r + 1) attempt calls sleeps lastErr =
      ⟨.error err, cache, calls + 1, sleeps⟩ := by
  unfold requestLoop
  rw [hnet]
  dsimp only
  rw [hcls]

theorem requestLoop_flagFail {α : Type} {method path : String}
    {cacheKeyOpt : Option String} {cacheTtl : Option Int} {maxR : Nat} {d : Int}
    {net : Nat → NetResult α} {jitter : Nat → ℚ} {now : Int} {cache : InMemoryCache α}
    {r attempt calls : Nat} {sleeps : List ℚ} {lastErr : Option TransportErr}
    {status : Nat} {ra : Option Int} {body : PyVal α}
    (hnet : net attempt = .response status ra body)
    (hcls : classifyStatus status ra = none)
    (hflag : successFlagFails body = true) :
    requestLoop method path cacheKeyOpt cacheTtl maxR d net jitter now cache
        (r + 1) attempt calls sleeps lastErr =
      ⟨.error (.apiError status), cache, calls + 1, sleeps⟩ := by
  unfold requestLoop
  rw [hnet]
  dsimp only
  rw [hcls]
  dsimp only
  rw [hflag]
  simp only [if_true]

/-- C5: a first attempt that classifies — 401/403 → Auth, 404 → NotFound,
429 → RateLimit with the server-advised retry-after (60 when the header
is absent), any other 4xx/5xx → ApiError with the status code, or a
success-status dict body whose explicit success flag is false (absent
flag means success) → ApiError — surfaces the typed failure immediately:
exactly one network call, no retry, no backoff sleep. -/
theorem nonretry_short_circuit (α : Type) (c : InMemoryCache α) (method path : String)
    (cacheTtl : Option Int) (n : Nat) (d : Int) (net : Nat → NetResult α)
    (jitter : Nat → ℚ) (now : Int) (status : Nat) (ra : Option Int) (body : PyVal α)
    (hnet : net 0 = .response status ra body) :
    (status = 401 ∨ status = 403 →
      request c true method path none cacheTtl (n + 1) d net jitter now =
        ⟨.error .auth, c, 1, []⟩) ∧
    (status = 404 →
      request c true method path none cacheTtl (n + 1) d net jitter now =
        ⟨.error .notFound, c, 1, []⟩) ∧
    (status = 429 →
      request c true method path none cacheTtl (n + 1) d net jitter now =
        ⟨.error (.rateLimit (ra.getD 60)), c, 1, []⟩) ∧
    (status = 429 → ra = none →
      request c true method path none cacheTtl (n + 1) d net jitter now =
        ⟨.error (.rateLimit 60), c, 1, []⟩) ∧
    (400 ≤ status → status ≠ 401 → status ≠ 403 → status ≠ 404 → status ≠ 429 →
      request c true method path none cacheTtl (n + 1) d net jitter now =
        ⟨.error (.apiError status), c, 1, []⟩) ∧
    (status < 400 → successFlagFails body = true →
      request c true method path none cacheTtl (n + 1) d net jitter now =
        ⟨.error (.apiError status), c, 1, []⟩) := by
  refine ⟨?_, ?_, ?_, ?_, ?_, ?_⟩
  · intro h
    rw [request_keyless]
    refine requestLoop_classified hnet ?_
    unfold classifyStatus
    rcases h with rfl | rfl
    · rw [if_pos rfl]
    · rw [if_neg (by omega), if_pos rfl]
  · intro h
    subst h
    rw [request_keyless]
    exact requestLoop_classified hnet rfl
  · intro h
    subst h
    rw [request_keyless]
    exact requestLoop_classified hnet rfl
  · intro h hra
    subst h
    subst hra
    rw [request_keyless]
    exact requestLoop_classified hnet rfl
  · intro h400 h1 h2 h3 h4
    rw [request_keyless]
    refine requestLoop_classified hnet ?_
    unfold classifyStatus
    rw [if_neg h1, if_neg h2, if_neg h3, if_neg h4]
    by_cases h5 : 500 ≤ status
    · rw [if_pos h5]
    · rw [if_neg h5, if_pos h400]
  · intro hlt hflag
    rw [request_keyless]
    refine requestLoop_flagFail hnet ?_ hflag
    unfold classifyStatus
    rw [if_neg (by omega), if_neg (by omega), if_neg (by omega), if_neg (by omega),
      if_neg (by omega), if_neg (by omega)]

/-- C5 witness at concrete instances (404 and default rate limit). -/
theorem nonretry_short_circuit_witness :
    (request (emptyCache Nat 300 1000) true ("GET") ("/x") none none 3 300
        (fun _ => .response 404 none (.other 0)) (fun _ => 0) 0 =
      ⟨.error .notFound, emptyCache Nat 300 1000, 1, []⟩) ∧
    (request (emptyCache Nat 300 1000) true ("GET") ("/x") none none 3 300
        (fun _ => .response 429 none (.other 0)) (fun _ => 0) 0 =
      ⟨.error (.rateLimit 60), emptyCache Nat 300 1000, 1, []⟩) := by
  constructor
  · exact (nonretry_short_circuit Nat (emptyCache Nat 300 1000) ("GET") ("/x") none 2 300
      (fun _ => .response 404 none (.other 0)) (fun _ => 0) 0 404 none (.other 0)
      rfl).2.1 rfl
  · exact (nonretry_short_circuit Nat (emptyCache Nat 300 1000) ("GET") ("/x") none 2 300
      (fun _ => .response 429 none (.other 0)) (fun _ => 0) 0 429 none (.other 0)
      rfl).2.2.2.1 rfl rfl

theorem lookupEntry_filter_none {α : Type} {l : List (String × CacheEntry α)}
    {key : String} {pb : String × CacheEntry α → Bool}
    (h : ∀ q ∈ l, q.1 = key → pb q = false) :
    lookupEntry (l.filter pb) key = none := by
  induction l with
  | nil => rfl
  | cons p tl ih =>
    have htl : ∀ q ∈ tl, q.1 = key → pb q = false :=
      fun q hq => h q (List.mem_cons_of_mem p hq)
    simp only [List.filter_cons]
    by_cases hp : pb p = true
    · rw [if_pos hp]
      simp only [lookupEntry]
      by_cases hk : p.1 = key
      · rw [h p (List.mem_cons_self p tl) hk] at hp
        cases hp
      · rw [if_neg hk]
        exact ih htl
    · rw [if_neg hp]
      exact ih htl

/-- C2 counterexample, two independent failing instances of the original
universal claim.  First: a successful POST to the path `/` derives the
empty resource-type token; the empty token is contained in every key
(witnessed by an explicit decomposition), yet no invalidation happens —
the cached entry survives untouched.  Second: a successful POST to
`/a+b/1` derives the token `a+b`, which is interpolated uninterpreted
into `.*a+b.*`; there `+` acts as a quantifier, so the key `xa+by`,
which contains the token `a+b` verbatim, is not matched and survives
invalidation. -/
theorem write_invalidation_counterexample :
    (resourceTypeOf ("/") = "" ∧
    ("user:1").data = [] ++ (resourceTypeOf ("/")).data ++ ("user:1").data ∧
    (request (⟨300, 1000, [(("user:1"), ⟨.other 3, 100⟩)]⟩ : InMemoryCache Nat) true
        ("POST") ("/") none none 3 300 (fun _ => .response 200 none (.other 7))
        (fun _ => 0) 0).result = .ok (.other 7) ∧
    (request (⟨300, 1000, [(("user:1"), ⟨.other 3, 100⟩)]⟩ : InMemoryCache Nat) true
        ("POST") ("/") none none 3 300 (fun _ => .response 200 none (.other 7))
        (fun _ => 0) 0).cache =
      ⟨300, 1000, [(("user:1"), ⟨.other 3, 100⟩)]⟩) ∧
    (resourceTypeOf ("/a+b/1") = "a+b" ∧
    ("xa+by").data = ("x").data ++ (resourceTypeOf ("/a+b/1")).data ++ ("y").data ∧
    (request (⟨300, 1000, [(("xa+by"), ⟨.other 3, 100⟩)]⟩ : InMemoryCache Nat) true
        ("POST") ("/a+b/1") none none 3 300 (fun _ => .response 200 none (.other 7))
        (fun _ => 0) 0).result = .ok (.other 7) ∧
    (request (⟨300, 1000, [(("xa+by"), ⟨.other 3, 100⟩)]⟩ : InMemoryCache Nat) true
        ("POST") ("/a+b/1") none none 3 300 (fun _ => .response 200 none (.other 7))
        (fun _ => 0) 0).cache =
      ⟨300, 1000, [(("xa+by"), ⟨.other 3, 100⟩)]⟩) := by
  exact ⟨⟨by decide, by decide, by decide, by decide⟩,
    ⟨by decide, by decide, by decide, by decide⟩⟩

/-- C2 (amended): after a successful mutating request (the keyless form
the client uses for writes) whose path yields a non-empty resource-type
token of self-matching characters (any characters other than regex
operators; `.` is allowed, since the wildcard matches the dot itself),
the pipeline invalidates exactly the cache keys the compiled `.*token.*`
pattern matches — in particular every key containing the token is gone —
in one network call; and the concrete read–mutate–read sequence issues
exactly one network call per step (three in total), the second read not
being served from the stale cache. -/
theorem write_invalidates_cache (α : Type) (c : InMemoryCache α)
    (method path rt : String) (n : Nat) (d : Int) (net : Nat → NetResult α)
    (jitter : Nat → ℚ) (now : Int) (status : Nat) (ra : Option Int) (body : PyVal α)
    (hw : isWriteMethod method = true)
    (hnet : net 0 = .response status ra body)
    (hcls : classifyStatus status ra = none)
    (hflag : successFlagFails body = false)
    (hrt : resourceTypeOf path = rt)
    (hne : rt ≠ "")
    (hlit : ∀ ch ∈ rt.data, IsSelfMatching ch) :
    ((request c true method path none none (n + 1) d net jitter now).result =
        .ok body ∧
      (request c true method path none none (n + 1) d net jitter now).networkCalls = 1 ∧
      (request c true method path none none (n + 1) d net jitter now).cache.entries =
        c.entries.filter (fun q => !((containsRe rt.data).matchStart q.1.data)) ∧
      (∀ key : String, (∃ u v, key.data = u ++ rt.data ++ v) →
        lookupEntry
          ((request c true method path none none (n + 1) d net jitter now).cache.entries)
          key = none)) ∧
    (rwRead1.networkCalls = 1 ∧ rwWrite.networkCalls = 1 ∧ rwRead2.networkCalls = 1 ∧
      rwRead1.result = .ok (.other 7) ∧ rwWrite.result = .ok (.other 8) ∧
      rwRead2.result = .ok (.other 7)) := by
  have hmid : request c true method path none none (n + 1) d net jitter now =
      ⟨.ok body,
        { c with entries :=
            c.entries.filter (fun q => !((containsRe rt.data).matchStart q.1.data)) },
        1, []⟩ := by
    rw [request_keyless]
    unfold requestLoop
    rw [hnet]
    dsimp only
    rw [hcls]
    dsimp only
    rw [hflag]
    simp only [Bool.false_eq_true, if_false]
    rw [if_pos hw, hrt, if_pos hne]
    unfold InMemoryCache.invalidatePattern
    rw [Regex.compile_contains rt hlit]
  refine ⟨⟨?_, ?_, ?_, ?_⟩, by decide, by decide, by decide, by decide, by decide, by decide⟩
  · rw [hmid]
  · rw [hmid]
  · rw [hmid]
  · intro key hcontain
    rw [hmid]
    refine lookupEntry_filter_none ?_
    intro q _ hq
    have hmatch : (containsRe rt.data).matchStart q.1.data = true := by
      obtain ⟨u, v, huv⟩ := hcontain
      rw [hq, huv]
      exact Regex.matchStart_containsRe_of_infix rt.data u v
    rw [hmatch]
    rfl

/-- C2 witness at a concrete instance: a PATCH on `/world/123` drops the
`world`-family key, keeps the unrelated key, and the read–mutate–read
sequence makes three network calls. -/
theorem write_invalidates_cache_witness :
    (request (⟨300, 1000, [(("world:123:1"), ⟨.other 7, 300⟩),
        (("user:9"), ⟨.other 1, 300⟩)]⟩ : InMemoryCache Nat) true ("PATCH")
        ("/world/123") none none 3 300
        (fun _ => .response 200 none (.other 8)) (fun _ => 0) 0).networkCalls = 1 ∧
    lookupEntry ((request (⟨300, 1000, [(("world:123:1"), ⟨.other 7, 300⟩),
        (("user:9"), ⟨.other 1, 300⟩)]⟩ : InMemoryCache Nat) true ("PATCH")
        ("/world/123") none none 3 300
        (fun _ => .response 200 none (.other 8)) (fun _ => 0) 0).cache.entries)
      ("world:123:1") = none ∧
    rwRead1.networkCalls + rwWrite.networkCalls + rwRead2.networkCalls = 3 := by
  have h := write_invalidates_cache Nat
    (⟨300, 1000, [(("world:123:1"), ⟨.other 7, 300⟩), (("user:9"), ⟨.other 1, 300⟩)]⟩ :
      InMemoryCache Nat)
    ("PATCH") ("/world/123") ("world") 2 300
    (fun _ => .response 200 none (.other 8)) (fun _ => 0) 0 200 none (.other 8)
    (by decide) rfl (by decide) (by decide) (by decide) (by decide) (by decide)
  refine ⟨h.1.2.1, ?_, ?_⟩
  · exact h.1.2.2.2 ("world:123:1")
      ⟨[], (":123:1").data, by decide⟩
  · rw [h.2.1, h.2.2.1, h.2.2.2.1]

end WAMCP
